import Mathlib

/-!
# Verification of the diff-based job tracker core

This file gives a shallow embedding, in Lean 4, of the algorithmic core of a
diff-based job-listing tracker written in Python, and proves (or refutes)
specification claims about it.

The embedded code comes from:
* `parsing_utils.py` — diff-row reconstruction (`reconstruct_added_rows`) and
  URL normalization (`_normalize_candidate_url`), together with models of the
  Python standard-library functions they call (`str.strip`, `str.lower`,
  `html.unescape`, `re` patterns, `urllib.parse.urlsplit/urlunsplit/parse_qsl/
  urlencode/quote_plus/unquote_plus`);
* `main.py` — the per-candidate processing pipeline `_process_candidate` /
  `_process_candidates`;
* `database.py` — the persisted-record store (`exists`, `insert_processed_job`).

Python strings are modelled as `List Char` (one element per code point) where
character-level reasoning is needed, and as `String` in the orchestration
layer.  Stated modelling simplifications of the standard library (each noted
at its definition): `str.lower` is modelled on ASCII letters only; percent
encoding/decoding treats a non-ASCII code point below 256 as the single
Latin-1 byte rather than its UTF-8 byte sequence, code points ≥ 256 are passed
through unencoded; `html.unescape` carries a representative finite fragment of
the HTML5 named-entity table (with the semicolon-less legacy forms and the
longest-prefix rule) and leaves numeric character references alone;
`urlsplit`'s bracketed-host validation approximates `ipaddress.ip_address` by
shape.  All concrete counterexamples below stay inside the pure-ASCII,
named-entity-free fragment, on which the model agrees exactly with
CPython 3.11.
-/

deriving instance DecidableEq for Except

namespace JobTracker

/-! ## Python string primitives over `List Char` -/

/-- Convert a Lean string literal to the `List Char` model of a Python `str`. -/
def str (s : String) : List Char := s.data

/-- The whitespace characters stripped by ASCII `str.strip()`. -/
def isPySpace (c : Char) : Bool :=
  c == ' ' || c == '\t' || c == '\n' || c == '\r' || c == '\x0b' || c == '\x0c'

/-- Python `str.strip()` (ASCII whitespace). -/
def pyStrip (l : List Char) : List Char :=
  ((l.dropWhile isPySpace).reverse.dropWhile isPySpace).reverse

/-- ASCII `str.lower()` on one character (Unicode case mapping not modelled). -/
def asciiLower (c : Char) : Char :=
  if 'A' ≤ c ∧ c ≤ 'Z' then Char.ofNat (c.toNat + 32) else c

/-- ASCII `str.lower()`. -/
def lowerL (l : List Char) : List Char := l.map asciiLower

/-- Does `pat` occur at the head of `l`?  (Python `str.startswith`.) -/
def startsWithL : List Char → List Char → Bool
  | _, [] => true
  | [], _ :: _ => false
  | c :: cs, p :: ps => c == p && startsWithL cs ps

/-- Does `pat` occur as a contiguous substring of `l`?  (Python `pat in l`.) -/
def hasSubL : List Char → List Char → Bool
  | [], pat => pat.isEmpty
  | c :: rest, pat => startsWithL (c :: rest) pat || hasSubL rest pat

/-- Split at the first occurrence of `c` (Python `split(c, 1)` when it hits). -/
def splitFirst (c : Char) : List Char → Option (List Char × List Char)
  | [] => none
  | x :: xs =>
    if x == c then some ([], xs)
    else match splitFirst c xs with
      | none => none
      | some (a, b) => some (x :: a, b)

/-- Split on every occurrence of `sep` (Python `str.split(sep)`); `acc` is the
reversed current piece. -/
def splitSepAux (sep : Char) : List Char → List Char → List (List Char)
  | [], acc => [acc.reverse]
  | c :: rest, acc =>
    if c == sep then acc.reverse :: splitSepAux sep rest []
    else splitSepAux sep rest (c :: acc)

/-- Join pieces with a single separator character (Python `sep.join`). -/
def joinSep (sep : Char) : List (List Char) → List Char
  | [] => []
  | [x] => x
  | x :: y :: xs => x ++ sep :: joinSep sep (y :: xs)

/-! ## `parsing_utils.reconstruct_added_rows` -/

/-- The row-open marker `"<tr"` looked for in the lower-cased line. -/
def trOpenPat : List Char := str "<tr"

/-- The row-close marker `"</tr>"` looked for in the lower-cased line. -/
def trClosePat : List Char := str "</tr>"

/-- The cell marker `"<td"` used by the fallback chunking strategy. -/
def tdPat : List Char := str "<td"

/-- Join buffered lines with single spaces (Python `" ".join(buffer)`). -/
def joinSpace (ls : List (List Char)) : List Char := joinSep ' ' ls

/-- State of the primary scanning loop of `reconstruct_added_rows`:
emitted rows, the `collecting` flag, and the current buffer. -/
structure RowState where
  rows : List (List Char)
  collecting : Bool
  buffer : List (List Char)
deriving DecidableEq

/-- One iteration of the primary loop of `reconstruct_added_rows`
(`parsing_utils.py`, lines 36–54). -/
def rowStep (st : RowState) (raw : List Char) : RowState :=
  let line := pyStrip raw
  let lw := lowerL line
  if hasSubL lw trOpenPat then
    if hasSubL lw trClosePat then ⟨st.rows ++ [joinSpace [line]], false, []⟩
    else ⟨st.rows, true, [line]⟩
  else if st.collecting then
    if hasSubL lw trClosePat then ⟨st.rows ++ [joinSpace (st.buffer ++ [line])], false, []⟩
    else ⟨st.rows, true, st.buffer ++ [line]⟩
  else st

/-- The rows emitted by the primary strategy of `reconstruct_added_rows`. -/
def primaryRows (lines : List (List Char)) : List (List Char) :=
  (lines.foldl rowStep ⟨[], false, []⟩).rows

/-- State of the fallback chunking loop: emitted chunks and current chunk lines. -/
structure ChunkState where
  chunks : List (List Char)
  current : List (List Char)
deriving DecidableEq

/-- Close the running chunk: keep it only when it contains a `<td` marker
(`parsing_utils.py`, lines 64–69 and 73–76). -/
def chunkFlush (st : ChunkState) : ChunkState :=
  if st.current ≠ [] then
    let chunk := joinSpace st.current
    ⟨if hasSubL (lowerL chunk) tdPat then st.chunks ++ [chunk] else st.chunks, []⟩
  else st

/-- One iteration of the fallback chunking loop of `reconstruct_added_rows`. -/
def chunkStep (st : ChunkState) (raw : List Char) : ChunkState :=
  let line := pyStrip raw
  if line = [] then chunkFlush st
  else ⟨st.chunks, st.current ++ [line]⟩

/-- The chunks produced by the fallback strategy of `reconstruct_added_rows`. -/
def fallbackChunks (lines : List (List Char)) : List (List Char) :=
  (chunkFlush (lines.foldl chunkStep ⟨[], []⟩)).chunks

/-- Model of `parsing_utils.reconstruct_added_rows`: primary marker-driven
reconstruction, falling back to blank-line chunking when it emits nothing. -/
def reconstruct_added_rows (lines : List (List Char)) : List (List Char) :=
  let rows := primaryRows lines
  if rows ≠ [] then rows else fallbackChunks lines

example : reconstruct_added_rows [str "<tr><td>A</td></tr>"] = [str "<tr><td>A</td></tr>"] := by
  decide

example : reconstruct_added_rows [str "  <tr>", str "<td>A</td>", str "</tr>"]
    = [str "<tr> <td>A</td> </tr>"] := by decide

example : reconstruct_added_rows [] = [] := by decide

example : reconstruct_added_rows [str "<td>A</td>", str "", str "noise"]
    = [str "<td>A</td>"] := by decide

/-! ## Models of `urllib.parse` percent-coding (CPython 3.11)

`quote_plus`/`unquote_plus` as used by `urlencode` and `parse_qsl`.
Modelling note: a non-safe code point below 256 is percent-encoded as the
single Latin-1 byte `%XX`; CPython instead encodes the UTF-8 byte sequence
and decodes percent runs as UTF-8.  The two agree on all ASCII text, which is
the fragment all concrete inputs below live in.  Code points ≥ 256 are passed
through unencoded. -/

/-- The characters `quote` never encodes (`urllib.parse._ALWAYS_SAFE`,
restricted to `safe=''` as `urlencode` uses). -/
def alwaysSafe (c : Char) : Bool :=
  c.isAlpha || c.isDigit || c == '_' || c == '.' || c == '-' || c == '~'

/-- Upper-case hex digits used by `quote`. -/
def hexDigits : List Char := str "0123456789ABCDEF"

/-- Two-digit upper-case hex of a byte value. -/
def toHex2 (n : Nat) : List Char :=
  [hexDigits.getD (n / 16 % 16) 'X', hexDigits.getD (n % 16) 'X']

/-- `quote_plus` on one character: safe characters kept, space becomes `+`,
other code points < 256 become `%XX` (see the Latin-1 modelling note). -/
def quotePlusChar (c : Char) : List Char :=
  if alwaysSafe c then [c]
  else if c == ' ' then ['+']
  else if c.toNat < 256 then '%' :: toHex2 c.toNat
  else [c]

/-- Model of `urllib.parse.quote_plus` with `safe=''`. -/
def quotePlus (l : List Char) : List Char := (l.map quotePlusChar).flatten

/-- Numeric value of a hex digit (both cases), as accepted by `unquote`. -/
def hexVal (c : Char) : Option Nat :=
  if c.isDigit then some (c.toNat - '0'.toNat)
  else if 'a' ≤ c ∧ c ≤ 'f' then some (c.toNat - 'a'.toNat + 10)
  else if 'A' ≤ c ∧ c ≤ 'F' then some (c.toNat - 'A'.toNat + 10)
  else none

/-- Model of `urllib.parse.unquote`: decode `%XX` escapes, leaving a `%` not
followed by two hex digits alone (see the Latin-1 modelling note). -/
def pyUnquote : List Char → List Char
  | [] => []
  | '%' :: h1 :: h2 :: rest =>
    match hexVal h1, hexVal h2 with
    | some a, some b => Char.ofNat (16 * a + b) :: pyUnquote rest
    | _, _ => '%' :: pyUnquote (h1 :: h2 :: rest)
  | c :: rest => c :: pyUnquote rest

/-- Model of `urllib.parse.unquote_plus`: `+` becomes a space, then unquote. -/
def unquotePlus (l : List Char) : List Char :=
  pyUnquote (l.map fun c => if c == '+' then ' ' else c)

/-- Model of `urllib.parse.parse_qsl(qs, keep_blank_values=True)`:
split on `&`, drop empty pieces, split each piece on the first `=`
(missing `=` gives a blank value), unquote names and values. -/
def pyParseQsl (qs : List Char) : List (List Char × List Char) :=
  if qs = [] then []
  else
    ((splitSepAux '&' qs []).filter (· ≠ [])).map fun nv =>
      match splitFirst '=' nv with
      | some (n, v) => (unquotePlus n, unquotePlus v)
      | none => (unquotePlus nv, [])

/-- Model of `urllib.parse.urlencode` on string pairs (the `doseq=True` call
in `_normalize_candidate_url` takes this branch for string values). -/
def pyUrlencode (items : List (List Char × List Char)) : List Char :=
  joinSep '&' (items.map fun kv => quotePlus kv.1 ++ '=' :: quotePlus kv.2)

/-! ## Model of `urllib.parse.urlsplit` / `urlunsplit` (CPython 3.11.6) -/

/-- The five fields of a `SplitResult`. -/
structure UrlParts where
  scheme : List Char
  netloc : List Char
  path : List Char
  query : List Char
  fragment : List Char
deriving DecidableEq

/-- `_WHATWG_C0_CONTROL_OR_SPACE`: code points ≤ 0x20, lstripped by `urlsplit`. -/
def isC0OrSpace (c : Char) : Bool := c.toNat ≤ 0x20

/-- `_UNSAFE_URL_BYTES_TO_REMOVE`: tab, CR and LF, removed everywhere. -/
def isUnsafeUrlByte (c : Char) : Bool := c == '\t' || c == '\r' || c == '\n'

/-- `urllib.parse.scheme_chars`. -/
def isSchemeChar (c : Char) : Bool :=
  c.isAlpha || c.isDigit || c == '+' || c == '-' || c == '.'

/-- The scheme-recognition step of `urlsplit`: split at the first `:` when the
text before it is a nonempty run of scheme characters starting with an ASCII
letter; the recognised scheme is lower-cased. -/
def schemeSplit (url : List Char) : List Char × List Char :=
  match splitFirst ':' url with
  | none => ([], url)
  | some (before, after) =>
    if !before.isEmpty && (match url.head? with | some c => c.isAlpha | none => false)
        && before.all isSchemeChar then
      (lowerL before, after)
    else ([], url)

/-- A netloc delimiter (`/`, `?` or `#`), ending `_splitnetloc`'s scan. -/
def isNetlocDelim (c : Char) : Bool := c == '/' || c == '?' || c == '#'

/-- `urllib.parse._splitnetloc`: the netloc is everything up to the first
delimiter. -/
def splitNetloc (l : List Char) : List Char × List Char :=
  (l.takeWhile (fun c => !isNetlocDelim c), l.dropWhile (fun c => !isNetlocDelim c))

/-- Split fragment (at the first `#`) and then query (at the first `?` of what
precedes it), returning `(path, query, fragment)` as `urlsplit` does. -/
def splitFragQuery (u : List Char) : List Char × List Char × List Char :=
  match splitFirst '#' u with
  | none =>
    (match splitFirst '?' u with
     | none => (u, [], [])
     | some pq => (pq.1, pq.2, []))
  | some uf =>
    match splitFirst '?' uf.1 with
    | none => (uf.1, [], uf.2)
    | some pq => (pq.1, pq.2, uf.2)

/-- ASCII hex digit (either case). -/
def isHexDigitC (c : Char) : Bool :=
  c.isDigit || ('a' ≤ c ∧ c ≤ 'f') || ('A' ≤ c ∧ c ≤ 'F')

/-- `netloc.partition('[')[2].partition(']')[0]`: the text between the first
`[` and the following `]` (to the end when `]` is missing). -/
def bracketedHost (netloc : List Char) : List Char :=
  match splitFirst '[' netloc with
  | none => []
  | some (_, after) =>
    match splitFirst ']' after with
    | none => after
    | some (inner, _) => inner

/-- Model of `urllib.parse._check_bracketed_host`.  The IPvFuture arm follows
the regex `\Av[a-fA-F0-9]+\..+\Z`; the other arm approximates
`ipaddress.ip_address` by accepting IPv6-shaped text (hex digits, `:` and `.`,
with at least one `:` — a bracketed IPv4 address is rejected, as CPython
does).  The approximation accepts some malformed IPv6-shaped strings that
CPython rejects; no concrete input below has a bracketed host. -/
def checkBracketedHost (host : List Char) : Bool :=
  if host.head? = some 'v' then
    match splitFirst '.' (host.drop 1) with
    | some ht => ht.1 ≠ [] && ht.1.all isHexDigitC && ht.2 ≠ []
    | none => false
  else
    host ≠ [] && host.all (fun c => isHexDigitC c || c == ':' || c == '.')
      && host.contains ':'

/-- The bracket validation `urlsplit` applies to a netloc: a lone `[` or `]`
is invalid, and a bracketed host must pass `checkBracketedHost`. -/
def bracketViolation (netloc : List Char) : Bool :=
  (netloc.contains '[' && !netloc.contains ']')
    || (netloc.contains ']' && !netloc.contains '[')
    || (netloc.contains '[' && netloc.contains ']'
        && !checkBracketedHost (bracketedHost netloc))

/-- Model of `urllib.parse.urlsplit` (CPython 3.11.6, default arguments):
lstrip C0 controls and spaces, remove tab/CR/LF, recognise the scheme, split
the netloc after `//` (validating brackets — a violation raises `ValueError`,
modelled as `.error`), then split fragment and query.  `_checknetloc` only
rejects some non-ASCII netlocs and is modelled as accepting. -/
def pyUrlsplitClean (url0 : List Char) : List Char :=
  (url0.dropWhile isC0OrSpace).filter (fun c => !isUnsafeUrlByte c)

/-- The body of `urlsplit` after scheme recognition. -/
def pyUrlsplitAfterScheme (scheme rest : List Char) : Except Unit UrlParts :=
  if startsWithL rest (str "//") then
    if bracketViolation (splitNetloc (rest.drop 2)).1 then .error ()
    else
      .ok ⟨scheme, (splitNetloc (rest.drop 2)).1,
        (splitFragQuery (splitNetloc (rest.drop 2)).2).1,
        (splitFragQuery (splitNetloc (rest.drop 2)).2).2.1,
        (splitFragQuery (splitNetloc (rest.drop 2)).2).2.2⟩
  else
    .ok ⟨scheme, [], (splitFragQuery rest).1, (splitFragQuery rest).2.1,
      (splitFragQuery rest).2.2⟩

def pyUrlsplit (url0 : List Char) : Except Unit UrlParts :=
  pyUrlsplitAfterScheme (schemeSplit (pyUrlsplitClean url0)).1
    (schemeSplit (pyUrlsplitClean url0)).2

/-- `urllib.parse.uses_netloc`. -/
def usesNetloc : List (List Char) :=
  [[], str "ftp", str "http", str "gopher", str "nntp", str "telnet",
   str "imap", str "wais", str "file", str "mms", str "https", str "shttp",
   str "snews", str "prospero", str "rtsp", str "rtspu", str "rsync",
   str "svn", str "svn+ssh", str "sftp", str "nfs", str "git", str "git+ssh",
   str "ws", str "wss", str "itms-services"]

/-- `url = scheme + ':' + url` when a scheme is present (`urlunsplit`). -/
def pyAddScheme (scheme url : List Char) : List Char :=
  if scheme ≠ [] then scheme ++ ':' :: url else url

/-- `url = url + '?' + query` when a query is present (`urlunsplit`). -/
def pyAddQuery (query url : List Char) : List Char :=
  if query ≠ [] then url ++ '?' :: query else url

/-- `url = url + '#' + fragment` when a fragment is present (`urlunsplit`). -/
def pyAddFragment (frag url : List Char) : List Char :=
  if frag ≠ [] then url ++ '#' :: frag else url

/-- Model of `urllib.parse.urlunsplit`. -/
def pyUrlunsplit (p : UrlParts) : List Char :=
  pyAddFragment p.fragment
    (pyAddQuery p.query
      (pyAddScheme p.scheme
        (if p.netloc ≠ [] ∨ (p.scheme ≠ [] ∧ usesNetloc.contains p.scheme
            ∧ ¬startsWithL p.path (str "//")) then
          '/' :: '/' :: (p.netloc
            ++ (if p.path ≠ [] ∧ p.path.head? ≠ some '/' then '/' :: p.path
                else p.path))
        else p.path)))

/-! ## Model of `html.unescape` (CPython 3.11)

A character reference is `&` followed by up to 32 characters outside
`\t\n\f <&#;` and an optional `;`; named references are resolved through the
HTML5 entity table using the longest matching prefix of length ≥ 2
(`html._replace_charref`).  The table here is a representative finite
fragment containing the HTML4 legacy entities in both their `;`-terminated
and bare forms, exactly as they appear in `html.entities.html5`; numeric
character references (`&#...`) are left untouched (modelling restriction —
no concrete input below uses one). -/

/-- Characters allowed in a named character reference (the regex class
`[^\t\n\f <&#;]` of `html._charref`). -/
def isEntityNameChar (c : Char) : Bool :=
  !(c == '\t' || c == '\n' || c == '\x0c' || c == ' ' || c == '<'
    || c == '&' || c == '#' || c == ';')

/-- Fragment of `html.entities.html5` (key includes the optional `;`). -/
def html5Entities : List (List Char × List Char) :=
  [(str "amp;", str "&"), (str "amp", str "&"),
   (str "lt;", str "<"), (str "lt", str "<"),
   (str "gt;", str ">"), (str "gt", str ">"),
   (str "quot;", str "\""), (str "quot", str "\""),
   (str "apos;", str "'"),
   (str "nbsp;", [Char.ofNat 0xA0])]

/-- Direct lookup in the entity table. -/
def entityLookup (s : List Char) : Option (List Char) :=
  (html5Entities.find? fun e => e.1 == s).map (·.2)

/-- Try prefixes of `s` of length `n, n-1, …, 2` in the entity table,
returning the replacement and the unmatched remainder (the longest-prefix
rule of `html._replace_charref`). -/
def entityMatchLen : Nat → List Char → Option (List Char × List Char)
  | 0, _ => none
  | 1, _ => none
  | n + 2, s =>
    match entityLookup (s.take (n + 2)) with
    | some rep => some (rep, s.drop (n + 2))
    | none => entityMatchLen (n + 1) s

/-- Resolve one named character-reference candidate. -/
def entityMatch (s : List Char) : Option (List Char × List Char) :=
  entityMatchLen s.length s

/-- Scanning loop of `html.unescape`; `fuel` only bounds recursion and is
instantiated with the input length. -/
def unescapeGo : Nat → List Char → List Char
  | 0, l => l
  | _, [] => []
  | fuel + 1, '&' :: rest =>
    let run := (rest.takeWhile isEntityNameChar).take 32
    if run = [] then '&' :: unescapeGo fuel rest
    else
      let afterRun := rest.drop run.length
      let cand := run ++ (match afterRun with | ';' :: _ => [';'] | _ => [])
      let afterCand := rest.drop cand.length
      match entityMatch cand with
      | some rl => rl.1 ++ rl.2 ++ unescapeGo fuel afterCand
      | none => '&' :: (cand ++ unescapeGo fuel afterCand)
  | fuel + 1, c :: rest => c :: unescapeGo fuel rest

/-- Model of `html.unescape`. -/
def htmlUnescape (l : List Char) : List Char :=
  if l.contains '&' then unescapeGo l.length l else l

/-! ## Model of `MARKDOWN_URL_REGEX`

`\[(https?://[^\]]+)\]\((https?://[^)]+)\)`, case-insensitive.  Because `]`
is excluded from the first bracketed class and `)` from the second, the
regex engine's greedy scan is deterministic, so a direct recursive matcher
is an exact model. -/

/-- Match `https?://` case-insensitively at the head, returning the rest. -/
def mdHttpStart (l : List Char) : Option (List Char) :=
  if startsWithL (lowerL l) (str "https://") then some (l.drop 8)
  else if startsWithL (lowerL l) (str "http://") then some (l.drop 7)
  else none

/-- Match the second capture group `https?://[^)]+` followed by `\)`;
on success return the captured text. -/
def mdGroup2 (rest2 : List Char) : Option (List Char) :=
  match mdHttpStart rest2 with
  | none => none
  | some afterScheme2 =>
    if afterScheme2.takeWhile (fun c => !(c == ')')) = [] then none
    else if (afterScheme2.drop
        (afterScheme2.takeWhile (fun c => !(c == ')'))).length).head? = some ')' then
      some (rest2.take (rest2.length - afterScheme2.length)
        ++ afterScheme2.takeWhile (fun c => !(c == ')')))
    else none

/-- Match `https?://[^\]]+` followed by `](` and then the second group. -/
def mdAfterBracket (rest : List Char) : Option (List Char) :=
  match mdHttpStart rest with
  | none => none
  | some afterScheme =>
    if afterScheme.takeWhile (fun c => !(c == ']')) = [] then none
    else if (afterScheme.drop
        (afterScheme.takeWhile (fun c => !(c == ']'))).length).take 2 = str "](" then
      mdGroup2 ((afterScheme.drop
        (afterScheme.takeWhile (fun c => !(c == ']'))).length).drop 2)
    else none

/-- Try to match the markdown-link pattern starting exactly here; on success
return capture group 2 (the target url). -/
def mdTryAt (l : List Char) : Option (List Char) :=
  if l.head? = some '[' then mdAfterBracket (l.drop 1) else none

/-- `MARKDOWN_URL_REGEX.search`: first match in left-to-right scan, returning
capture group 2. -/
def mdSearch : List Char → Option (List Char)
  | [] => none
  | c :: rest =>
    match mdTryAt (c :: rest) with
    | some g2 => some g2
    | none => mdSearch rest

/-! ## `parsing_utils._normalize_candidate_url` -/

/-- `TRACKING_QUERY_KEYS` from `parsing_utils.py`. -/
def TRACKING_QUERY_KEYS : List (List Char) :=
  [str "fbclid", str "gclid", str "igshid", str "ref", str "source"]

/-- Is the query key dropped by the tracking-parameter filter
(`parsing_utils.py`, lines 171–177)? -/
def isTrackingKey (k : List Char) : Bool :=
  startsWithL (lowerL k) (str "utm_") || TRACKING_QUERY_KEYS.contains (lowerL k)

/-- The surviving query parameters, in original order. -/
def filterTracking (items : List (List Char × List Char)) :
    List (List Char × List Char) :=
  items.filter fun kv => !isTrackingKey kv.1

/-- `text[1:-1].strip()` when the text is enclosed in `[` … `]`
(`parsing_utils.py`, lines 163–164). -/
def bracketStrip (l : List Char) : List Char :=
  if l.head? = some '[' ∧ l.getLast? = some ']' then pyStrip (l.drop 1).dropLast
  else l

/-- `parsed.path.rstrip("/")`: drop every trailing slash. -/
def rstripSlashes (l : List Char) : List Char :=
  (l.reverse.dropWhile (· == '/')).reverse

/-- `parsed.path.rstrip("/") or parsed.path` (`parsing_utils.py`, line 179):
all trailing slashes are dropped unless that empties the path. -/
def rstripOrPath (p : List Char) : List Char :=
  if rstripSlashes p = [] then p else rstripSlashes p

/-- The output `_normalize_candidate_url` rebuilds from the split parts
(`parsing_utils.py`, lines 170–191). -/
def buildNormalized (parts : UrlParts) : List Char :=
  pyUrlunsplit
    ⟨lowerL parts.scheme, lowerL parts.netloc, rstripOrPath parts.path,
     pyUrlencode (filterTracking (pyParseQsl parts.query)), []⟩

/-- The part of `_normalize_candidate_url` after HTML unescaping and markdown
replacement: strip an enclosing bracket pair, split the URL (a `ValueError`
from `urlsplit` propagates as `.error`), require an http/https scheme and a
nonempty netloc, and rebuild the normalized URL. -/
def normalizePost (text0 : List Char) : Except Unit (Option (List Char)) :=
  match pyUrlsplit (bracketStrip text0) with
  | .error e => .error e
  | .ok parts =>
    if (lowerL parts.scheme = str "http" ∨ lowerL parts.scheme = str "https")
        ∧ parts.netloc ≠ [] then
      .ok (some (buildNormalized parts))
    else .ok none

/-- Step 1b of `_normalize_candidate_url`: when the markdown-link regex finds
a match, the text is replaced by capture group 2. -/
def mdReplaceText (text : List Char) : List Char :=
  match mdSearch text with
  | some g2 => g2
  | none => text

/-- Model of `parsing_utils._normalize_candidate_url`.  `.ok none` models
`return None`, `.ok (some n)` a returned string, `.error` a propagating
`ValueError` from `urlsplit`. -/
def _normalize_candidate_url (raw : List Char) : Except Unit (Option (List Char)) :=
  if htmlUnescape (pyStrip raw) = [] then .ok none
  else normalizePost (mdReplaceText (htmlUnescape (pyStrip raw)))

example : _normalize_candidate_url (str "HTTPS://ExAmple.COM/Path/?utm_source=x&ref=y&q=1#frag")
    = .ok (some (str "https://example.com/Path?q=1")) := by decide

example : _normalize_candidate_url (str "http://h/a #f") = .ok (some (str "http://h/a ")) := by
  decide

example : _normalize_candidate_url (str "http://h/a ") = .ok (some (str "http://h/a")) := by
  decide

example : _normalize_candidate_url (str "http://x.com/a//") = .ok (some (str "http://x.com/a")) := by
  decide

example : _normalize_candidate_url (str "http://x.com/") = .ok (some (str "http://x.com/")) := by
  decide

example : _normalize_candidate_url (str "[Apply](http://x.com/page)") = .ok none := by decide

example : _normalize_candidate_url (str "[http://a.com/x](http://b.com/y)")
    = .ok (some (str "http://b.com/y")) := by decide

example : _normalize_candidate_url (str "http://x.com/?a=1&%6ct=2")
    = .ok (some (str "http://x.com/?a=1&lt=2")) := by decide

example : _normalize_candidate_url (str "http://x.com/?a=1&lt=2")
    = .ok (some (str "http://x.com/?a=1%3C%3D2")) := by decide

example : _normalize_candidate_url (str "not a url") = .ok none := by decide

/-! ## Model of `main.py` candidate processing and `database.py` persistence -/

/-- `llm_engine.LocationPriority`. -/
inductive LocationPriority
  | preferred
  | neutral
  | non_preferred
deriving DecidableEq

/-- `llm_engine.JobAnalysis`: the validated classifier output. -/
structure JobAnalysis where
  company : String
  role : String
  location : String
  company_description : String
  is_tech_intern : Bool
  prestige_score : Int
  location_priority : LocationPriority
  reason : String
deriving DecidableEq

/-- One persisted row of the `processed_jobs` table (`created_at`, set from
the wall clock, is not modelled). -/
structure ProcessedJob where
  link_hash : String
  company : String
  role : String
  score : Int
  notified : Bool
deriving DecidableEq

/-- The `processed_jobs` table, in insertion order. -/
abbrev Db := List ProcessedJob

/-- Model of `Database.exists`: is some row keyed by this hash present? -/
def dbExists (db : Db) (h : String) : Bool := db.any fun r => r.link_hash == h

/-- `sqlite3.IntegrityError`, raised on a primary-key violation. -/
inductive DbError
  | integrityError
deriving DecidableEq

/-- Model of `Database.insert_processed_job` (`database.py`, lines 76–94): a
plain `INSERT` into a table whose primary key is `link_hash`, so inserting a
duplicate key raises `IntegrityError`. -/
def insert_processed_job (db : Db) (r : ProcessedJob) : Except DbError Db :=
  if dbExists db r.link_hash then .error .integrityError else .ok (db ++ [r])

/-- An exception propagating uncaught out of `_process_candidate`: a
primary-key violation raised by the final insert, or the `AttributeError`
raised at `main.py`, line 253, where the skip-notification log call reads
`analysis.company_reputation.value` — a field `JobAnalysis`
(`llm_engine.py`, lines 27–39) does not have. -/
inductive ProcError
  | dbError (e : DbError)
  | attributeError
deriving DecidableEq

/-- `main.JobCandidate`. -/
structure JobCandidate where
  row_payload : String
  apply_url : String
  company_fallback : String
  role_fallback : String
  posted_age : Option String
  posted_date : Option String
deriving DecidableEq

/-- The configuration fields `_process_candidate` reads. -/
structure SettingsM where
  min_notify_score : Int
  enable_facebook : Bool
deriving DecidableEq

/-- External collaborators of `_process_candidate`, as oracles:
`hashLink` models `_hash_link` (a SHA-256 hex digest, uninterpreted here);
`analyze` models `LLMEngine.analyze_job`, `none` standing for a raised
exception; `discordOk url` / `facebookOk url` say whether the body of
`Notifier.send_discord` / `send_facebook` would succeed for that url if it
were entered. -/
structure Env where
  hashLink : String → String
  analyze : String → Option JobAnalysis
  discordOk : String → Bool
  facebookOk : String → Bool
  settings : SettingsM

/-- Counts of observable external effects of candidate processing:
classifier invocations and entries into each notifier method's body. -/
structure Effects where
  llmCalls : Nat
  discordSends : Nat
  facebookSends : Nat
deriving DecidableEq

/-- Pointwise sum of effect counts. -/
def Effects.add (a b : Effects) : Effects :=
  ⟨a.llmCalls + b.llmCalls, a.discordSends + b.discordSends,
   a.facebookSends + b.facebookSends⟩

/-- Python call-time keyword binding: passing a keyword argument the callee
does not accept raises `TypeError` before the body runs. -/
def pyCallKwargs (accepted passed : List String) (body : Except Unit α) :
    Except Unit α :=
  if passed.all (fun k => accepted.contains k) then body else .error ()

/-- The keyword parameters `Notifier.send_discord` accepts
(`notifier.py`, line 23: `def send_discord(self, job, apply_link)`). -/
def send_discord_keywords : List String := ["job", "apply_link"]

/-- The keyword parameters `Notifier.send_facebook` accepts
(`notifier.py`, line 80: `def send_facebook(self, job, apply_link)`). -/
def send_facebook_keywords : List String := ["job", "apply_link"]

/-- The extra keyword arguments `_process_candidate` passes to both channels
(`main.py`, lines 233 and 240). -/
def main_notify_extra_keywords : List String := ["posted_age", "posted_date"]

/-- Model of the guarded call
`notifier.send_discord(analysis, apply_url, posted_age=…, posted_date=…)`
inside its `try`/`except` (`main.py`, lines 232–236): keyword binding happens
first, then (if it succeeded) the notifier body runs and succeeds according
to the oracle.  Returns (call succeeded, number of body entries). -/
def attemptDiscord (env : Env) (url : String) : Bool × Nat :=
  match pyCallKwargs send_discord_keywords main_notify_extra_keywords (.ok ()) with
  | .error _ => (false, 0)
  | .ok _ => (env.discordOk url, 1)

/-- Model of the guarded call to `notifier.send_facebook`
(`main.py`, lines 238–243), analogous to `attemptDiscord`. -/
def attemptFacebook (env : Env) (url : String) : Bool × Nat :=
  match pyCallKwargs send_facebook_keywords main_notify_extra_keywords (.ok ()) with
  | .error _ => (false, 0)
  | .ok _ => (env.facebookOk url, 1)

/-- Python `value or "Unknown"` on a string. -/
def orUnknown (s : String) : String := if s = "" then "Unknown" else s

/-- Model of `main._process_candidate` (`main.py`, lines 197–262): dedup
check, classification with failure fallback, notification gating, and the
final insert.  `.error` is an exception that escapes the function: an
`IntegrityError` from the insert, or the `AttributeError` from the
skip-notification branch (`main.py`, line 253), which in the real program is
raised while building the log message — before the insert at line 256 — and
is caught nowhere. -/
def processCandidate (env : Env) (db : Db) (c : JobCandidate) :
    Except ProcError (Db × Effects) :=
  let link_hash := env.hashLink c.apply_url
  if dbExists db link_hash then .ok (db, ⟨0, 0, 0⟩)
  else
    match env.analyze c.row_payload with
    | none =>
      match insert_processed_job db
          ⟨link_hash, orUnknown c.company_fallback, orUnknown c.role_fallback,
           0, false⟩ with
      | .error e => .error (.dbError e)
      | .ok db' => .ok (db', ⟨1, 0, 0⟩)
    | some a =>
      if a.is_tech_intern ∧ a.prestige_score ≥ env.settings.min_notify_score then
        let d := attemptDiscord env c.apply_url
        let f := if env.settings.enable_facebook then attemptFacebook env c.apply_url
                 else (false, 0)
        let notified := d.1 || f.1
        match insert_processed_job db
            ⟨link_hash, a.company, a.role, a.prestige_score, notified⟩ with
        | .error e => .error (.dbError e)
        | .ok db' => .ok (db', ⟨1, d.2, f.2⟩)
      else
        .error .attributeError

/-- Model of `main._process_candidates`: sequential processing of a batch,
accumulating effects; an uncaught exception from one candidate aborts the
rest of the batch. -/
def processCandidates (env : Env) (db : Db) :
    List JobCandidate → Except ProcError (Db × Effects)
  | [] => .ok (db, ⟨0, 0, 0⟩)
  | c :: rest =>
    match processCandidate env db c with
    | .error e => .error e
    | .ok (db1, e1) =>
      match processCandidates env db1 rest with
      | .error e => .error e
      | .ok (db2, e2) => .ok (db2, e1.add e2)

/-! ## Claims about `_process_candidate` / `_process_candidates` -/

theorem processCandidates_cons_ok {env : Env} {db db' : Db} {c : JobCandidate}
    {eff : Effects} (h : processCandidate env db c = .ok (db', eff))
    (rest : List JobCandidate) :
    processCandidates env db (c :: rest)
      = (processCandidates env db' rest).map fun p => (p.1, eff.add p.2) := by
  simp only [processCandidates, h]
  cases processCandidates env db' rest <;> rfl

/-- C1 (bug): the claim is FALSE in exactly the case it singles out.  For a
fresh candidate whose classification succeeds but which does not qualify for
notification, the skip-notification log call at `main.py`, line 253, reads
`analysis.company_reputation.value` — a field `JobAnalysis`
(`llm_engine.py`, lines 27–39) does not have — so an `AttributeError` is
raised while the log arguments are evaluated, before the insert at line 256.
No record is persisted for the candidate and, the error being caught nowhere
in `_process_candidate` or `_process_candidates`, the rest of the batch is
aborted. -/
theorem claim1_nonqualifying_crash
    (env : Env) (db : Db) (c : JobCandidate) (a : JobAnalysis)
    (hfresh : dbExists db (env.hashLink c.apply_url) = false)
    (hok : env.analyze c.row_payload = some a)
    (hnq : ¬(a.is_tech_intern ∧ a.prestige_score ≥ env.settings.min_notify_score)) :
    processCandidate env db c = .error .attributeError
    ∧ ∀ rest, processCandidates env db (c :: rest) = .error .attributeError := by
  have h : processCandidate env db c = .error .attributeError := by
    simp [processCandidate, hfresh, hok, hnq]
  exact ⟨h, fun rest => by simp [processCandidates, h]⟩

theorem claim1_bug_witness :
    dbExists [] (Env.hashLink ⟨id, fun _ => some ⟨"A", "R", "L", "D", true, 10, .neutral, "x"⟩,
        fun _ => true, fun _ => true, ⟨75, true⟩⟩ "u") = false
    ∧ (Env.analyze ⟨id, fun _ => some ⟨"A", "R", "L", "D", true, 10, .neutral, "x"⟩,
        fun _ => true, fun _ => true, ⟨75, true⟩⟩ "p")
        = some ⟨"A", "R", "L", "D", true, 10, .neutral, "x"⟩
    ∧ ¬((true : Bool) = true ∧ (10 : Int) ≥ 75)
    ∧ processCandidate ⟨id, fun _ => some ⟨"A", "R", "L", "D", true, 10, .neutral, "x"⟩,
        fun _ => true, fun _ => true, ⟨75, true⟩⟩ [] ⟨"p", "u", "cf", "rf", none, none⟩
        = .error .attributeError
    ∧ ∀ rest, processCandidates ⟨id, fun _ => some ⟨"A", "R", "L", "D", true, 10, .neutral, "x"⟩,
        fun _ => true, fun _ => true, ⟨75, true⟩⟩ [] (⟨"p", "u", "cf", "rf", none, none⟩ :: rest)
        = .error .attributeError :=
  have h := claim1_nonqualifying_crash
    ⟨id, fun _ => some ⟨"A", "R", "L", "D", true, 10, .neutral, "x"⟩,
      fun _ => true, fun _ => true, ⟨75, true⟩⟩ [] ⟨"p", "u", "cf", "rf", none, none⟩
    ⟨"A", "R", "L", "D", true, 10, .neutral, "x"⟩ rfl rfl (by decide)
  ⟨rfl, rfl, by decide, h.1, h.2⟩

/-- C2: processing a candidate whose link hash is already persisted leaves the
store unchanged, performs no classifier call and enters no notification
channel body, and has no other effect. -/
theorem claim2_duplicate_candidate_skipped
    (env : Env) (db : Db) (c : JobCandidate)
    (hdup : dbExists db (env.hashLink c.apply_url) = true) :
    processCandidate env db c = .ok (db, ⟨0, 0, 0⟩) := by
  simp [processCandidate, hdup]

theorem claim2_witness :
    dbExists [⟨"u", "A", "R", 1, false⟩]
        (Env.hashLink ⟨id, fun _ => none, fun _ => true, fun _ => true, ⟨75, true⟩⟩ "u") = true
    ∧ processCandidate ⟨id, fun _ => none, fun _ => true, fun _ => true, ⟨75, true⟩⟩
        [⟨"u", "A", "R", 1, false⟩] ⟨"p", "u", "cf", "rf", none, none⟩
        = .ok ([⟨"u", "A", "R", 1, false⟩], ⟨0, 0, 0⟩) :=
  ⟨rfl, claim2_duplicate_candidate_skipped _ [⟨"u", "A", "R", 1, false⟩]
    ⟨"p", "u", "cf", "rf", none, none⟩ rfl⟩

/-- C3: when classification of a fresh candidate raises, exactly one record is
persisted with score 0 and notified=false under the fallback company and role
(nonempty fallbacks are used verbatim), no notification channel body is
entered, and the rest of the batch continues from the extended store. -/
theorem claim3_classifier_failure_persists_fallback
    (env : Env) (db : Db) (c : JobCandidate)
    (hfresh : dbExists db (env.hashLink c.apply_url) = false)
    (hfail : env.analyze c.row_payload = none)
    (hcf : c.company_fallback ≠ "") (hrf : c.role_fallback ≠ "") :
    processCandidate env db c
      = .ok (db ++ [⟨env.hashLink c.apply_url, c.company_fallback,
          c.role_fallback, 0, false⟩], ⟨1, 0, 0⟩)
    ∧ ∀ rest, processCandidates env db (c :: rest)
        = (processCandidates env (db ++ [⟨env.hashLink c.apply_url,
            c.company_fallback, c.role_fallback, 0, false⟩]) rest).map
            fun p => (p.1, Effects.add ⟨1, 0, 0⟩ p.2) := by
  have h : processCandidate env db c
      = .ok (db ++ [⟨env.hashLink c.apply_url, c.company_fallback,
          c.role_fallback, 0, false⟩], ⟨1, 0, 0⟩) := by
    simp [processCandidate, hfresh, hfail, insert_processed_job, orUnknown, hcf, hrf]
  exact ⟨h, fun rest => processCandidates_cons_ok h rest⟩

theorem claim3_witness :
    dbExists [] (Env.hashLink ⟨id, fun _ => none, fun _ => true, fun _ => true, ⟨75, true⟩⟩ "u") = false
    ∧ (Env.analyze ⟨id, fun _ => none, fun _ => true, fun _ => true, ⟨75, true⟩⟩ "p") = none
    ∧ ("cf" : String) ≠ "" ∧ ("rf" : String) ≠ ""
    ∧ processCandidate ⟨id, fun _ => none, fun _ => true, fun _ => true, ⟨75, true⟩⟩ []
        ⟨"p", "u", "cf", "rf", none, none⟩
        = .ok ([] ++ [⟨"u", "cf", "rf", 0, false⟩], ⟨1, 0, 0⟩) :=
  ⟨rfl, rfl, by decide, by decide,
    (claim3_classifier_failure_persists_fallback _ [] ⟨"p", "u", "cf", "rf", none, none⟩
      rfl rfl (by decide) (by decide)).1⟩

/-- The concrete classifier output of the spec's notification example:
`is_tech_intern=true`, `prestige_score=80`. -/
def c4Analysis : JobAnalysis := ⟨"Acme", "SWE Intern", "NYC", "d", true, 80, .neutral, "r"⟩

/-- Environment for the notification example: threshold 75, Facebook enabled,
and both channel bodies would succeed if they were ever entered. -/
def c4Env : Env := ⟨id, fun _ => some c4Analysis, fun _ => true, fun _ => true, ⟨75, true⟩⟩

/-- A fresh qualifying candidate. -/
def c4Candidate : JobCandidate := ⟨"row", "http://jobs.example.com/1", "Acme", "SWE", none, none⟩

/-- C4 (bug witness): for a fresh qualifying candidate
(`is_tech_intern=true`, `prestige_score=80 ≥ 75`) with Facebook enabled and
both channels able to succeed, `_process_candidate` persists
`notified=false` and enters neither notifier body: the calls at
`main.py:233` and `main.py:240` pass keyword arguments `posted_age` and
`posted_date` that `Notifier.send_discord` / `send_facebook`
(`notifier.py:23`, `notifier.py:80`) do not accept, so both raise
`TypeError` inside the surrounding `try` blocks and are recorded as
failures.  The claim (spec §4.5 step 3) requires the channels to be
attempted and `notified=true` when one succeeds. -/
theorem claim4_notification_binding_bug :
    c4Env.settings.enable_facebook = true
    ∧ c4Env.discordOk c4Candidate.apply_url = true
    ∧ c4Env.facebookOk c4Candidate.apply_url = true
    ∧ c4Analysis.is_tech_intern = true ∧ c4Analysis.prestige_score = 80
    ∧ c4Env.settings.min_notify_score = 75
    ∧ processCandidate c4Env [] c4Candidate
        = .ok ([⟨"http://jobs.example.com/1", "Acme", "SWE Intern", 80, false⟩],
          ⟨1, 0, 0⟩) := by
  refine ⟨rfl, rfl, rfl, rfl, rfl, rfl, ?_⟩
  decide

/-! ## Claims about `insert_processed_job` -/

/-- The `processed_jobs` primary-key invariant: pairwise distinct hashes. -/
def uniqueKeys (db : Db) : Prop := db.Pairwise fun a b => a.link_hash ≠ b.link_hash

/-- C8 (counterexample): inserting a record whose link hash is already present
fails with `IntegrityError` — the insert is a plain `INSERT`, not an
idempotent upsert (`database.py`, lines 86–94). -/
theorem claim8_duplicate_insert_raises :
    insert_processed_job [⟨"h1", "A", "R", 5, true⟩] ⟨"h1", "B", "S", 7, false⟩
      = .error .integrityError := by decide

/-- C8 (amended): inserting a record whose hash is present raises
`IntegrityError` (leaving the store as it was), and any successful insert
preserves the at-most-one-record-per-hash invariant. -/
theorem claim8_amended_insert_unique (db : Db) (r : ProcessedJob)
    (hu : uniqueKeys db) :
    (dbExists db r.link_hash = true
      → insert_processed_job db r = .error .integrityError)
    ∧ ∀ db', insert_processed_job db r = .ok db' → uniqueKeys db' := by
  constructor
  · intro hdup
    simp [insert_processed_job, hdup]
  · intro db' hok
    have hfresh : dbExists db r.link_hash = false := by
      by_cases h : dbExists db r.link_hash = true
      · simp [insert_processed_job, h] at hok
      · simpa using h
    have hdb : db' = db ++ [r] := by
      simp [insert_processed_job, hfresh] at hok
      exact hok.symm
    subst hdb
    have hne : ∀ x ∈ db, x.link_hash ≠ r.link_hash := by
      intro x hx
      simp [dbExists, List.any_eq_true] at hfresh
      exact fun hEq => (hfresh x hx) hEq
    exact List.pairwise_append.mpr ⟨hu, List.pairwise_singleton _ _,
      fun x hx y hy => by
        simp at hy
        subst hy
        exact hne x hx⟩

theorem claim8_amended_witness :
    (dbExists [⟨"h1", "A", "R", 5, true⟩]
        (ProcessedJob.link_hash ⟨"h1", "B", "S", 7, false⟩) = true
      → insert_processed_job [⟨"h1", "A", "R", 5, true⟩] ⟨"h1", "B", "S", 7, false⟩
          = .error .integrityError)
    ∧ ∀ db', insert_processed_job [⟨"h1", "A", "R", 5, true⟩] ⟨"h1", "B", "S", 7, false⟩
        = .ok db' → uniqueKeys db' :=
  claim8_amended_insert_unique [⟨"h1", "A", "R", 5, true⟩] ⟨"h1", "B", "S", 7, false⟩
    (List.pairwise_singleton _ _)

/-! ## Claims about `reconstruct_added_rows` -/

/-- Does the line (as processed: stripped then lower-cased) contain the
row-open marker? -/
def lineOpens (l : List Char) : Bool := hasSubL (lowerL (pyStrip l)) trOpenPat

/-- Does the line (as processed) contain the row-close marker? -/
def lineCloses (l : List Char) : Bool := hasSubL (lowerL (pyStrip l)) trClosePat

theorem rowStep_skip {st : RowState} {raw : List Char}
    (ho : lineOpens raw = false) (hcol : st.collecting = false) :
    rowStep st raw = st := by
  simp only [lineOpens] at ho
  simp [rowStep, ho, hcol]

theorem rowStep_open_start {st : RowState} {raw : List Char}
    (ho : lineOpens raw = true) (hc : lineCloses raw = false) :
    rowStep st raw = ⟨st.rows, true, [pyStrip raw]⟩ := by
  simp only [lineOpens] at ho
  simp only [lineCloses] at hc
  simp [rowStep, ho, hc]

theorem rowStep_collect_append {st : RowState} {raw : List Char}
    (ho : lineOpens raw = false) (hc : lineCloses raw = false)
    (hcol : st.collecting = true) :
    rowStep st raw = ⟨st.rows, true, st.buffer ++ [pyStrip raw]⟩ := by
  simp only [lineOpens] at ho
  simp only [lineCloses] at hc
  cases st
  simp_all [rowStep]

theorem rowStep_collect_close {st : RowState} {raw : List Char}
    (ho : lineOpens raw = false) (hc : lineCloses raw = true)
    (hcol : st.collecting = true) :
    rowStep st raw
      = ⟨st.rows ++ [joinSpace (st.buffer ++ [pyStrip raw])], false, []⟩ := by
  simp only [lineOpens] at ho
  simp only [lineCloses] at hc
  simp [rowStep, ho, hc, hcol]

theorem rowStep_no_close_rows {st : RowState} {raw : List Char}
    (hc : lineCloses raw = false) : (rowStep st raw).rows = st.rows := by
  simp only [lineCloses] at hc
  simp only [rowStep]
  split_ifs <;> simp_all

theorem foldl_rowStep_skip (st : RowState) (hcol : st.collecting = false)
    (ls : List (List Char)) (h : ∀ l ∈ ls, lineOpens l = false) :
    ls.foldl rowStep st = st := by
  induction ls with
  | nil => rfl
  | cons x xs ih =>
    simp only [List.foldl_cons]
    rw [rowStep_skip (h x (List.mem_cons_self x xs)) hcol]
    exact ih fun l hl => h l (List.mem_cons_of_mem _ hl)

theorem foldl_rowStep_no_close_rows (ls : List (List Char))
    (h : ∀ l ∈ ls, lineCloses l = false) (st : RowState) :
    (ls.foldl rowStep st).rows = st.rows := by
  induction ls generalizing st with
  | nil => rfl
  | cons x xs ih =>
    simp only [List.foldl_cons]
    rw [ih (fun l hl => h l (List.mem_cons_of_mem _ hl))]
    exact rowStep_no_close_rows (h x (List.mem_cons_self x xs))

theorem hasSubL_append_right {s pat : List Char} (h : hasSubL s pat = true)
    (a : List Char) : hasSubL (a ++ s) pat = true := by
  induction a with
  | nil => simpa using h
  | cons c a' ih =>
    simp only [List.cons_append, hasSubL, Bool.or_eq_true]
    exact Or.inr ih

theorem joinSpace_append_single (buf : List (List Char)) (x : List Char) :
    joinSpace (buf ++ [x])
      = if buf.isEmpty then x else joinSpace buf ++ ' ' :: x := by
  induction buf with
  | nil => rfl
  | cons b buf' ih =>
    cases buf' with
    | nil => rfl
    | cons b2 rest =>
      simp only [joinSpace, joinSep, List.cons_append, List.isEmpty_cons] at *
      simp [ih]

theorem rowStep_rows_close {st : RowState} {raw : List Char}
    (hst : ∀ row ∈ st.rows, hasSubL (lowerL row) trClosePat = true) :
    ∀ row ∈ (rowStep st raw).rows, hasSubL (lowerL row) trClosePat = true := by
  by_cases hc : lineCloses raw = true
  · by_cases ho : lineOpens raw = true
    · have : rowStep st raw = ⟨st.rows ++ [joinSpace [pyStrip raw]], false, []⟩ := by
        simp only [lineOpens] at ho
        simp only [lineCloses] at hc
        simp [rowStep, ho, hc]
      rw [this]
      intro row hrow
      rcases List.mem_append.mp hrow with h | h
      · exact hst row h
      · simp only [List.mem_singleton] at h
        subst h
        simpa only [joinSpace, joinSep, lineCloses] using hc
    · by_cases hcol : st.collecting = true
      · rw [rowStep_collect_close (by simpa using ho) hc hcol]
        intro row hrow
        rcases List.mem_append.mp hrow with h | h
        · exact hst row h
        · simp only [List.mem_singleton] at h
          subst h
          rw [joinSpace_append_single]
          split
          · simpa only [lineCloses] using hc
          · rw [lowerL, List.map_append]
            exact hasSubL_append_right
              (by
                simp only [lineCloses] at hc
                simpa only [lowerL, List.map_cons] using
                  hasSubL_append_right (s := lowerL (pyStrip raw)) hc [asciiLower ' ']) _
      · rw [rowStep_skip (by simpa using ho) (by simpa using hcol)]
        exact hst
  · intro row hrow
    rw [rowStep_no_close_rows (by simpa using hc)] at hrow
    exact hst row hrow

theorem foldl_rowStep_rows_close (ls : List (List Char)) (st : RowState)
    (hst : ∀ row ∈ st.rows, hasSubL (lowerL row) trClosePat = true) :
    ∀ row ∈ (ls.foldl rowStep st).rows, hasSubL (lowerL row) trClosePat = true := by
  induction ls generalizing st with
  | nil => exact hst
  | cons x xs ih =>
    simp only [List.foldl_cons]
    exact ih (rowStep st x) (rowStep_rows_close hst)

/-- C9: on an input whose only markers are one row split across three lines
(an opening line without the close marker, a marker-free middle line, a
closing line without a fresh open marker), `reconstruct_added_rows` emits
exactly that row: the three stripped lines joined with single spaces. -/
theorem claim9_three_line_row (pre post : List (List Char)) (l1 l2 l3 : List Char)
    (hpre : ∀ l ∈ pre, lineOpens l = false)
    (hpost : ∀ l ∈ post, lineOpens l = false)
    (h1o : lineOpens l1 = true) (h1c : lineCloses l1 = false)
    (h2o : lineOpens l2 = false) (h2c : lineCloses l2 = false)
    (h3o : lineOpens l3 = false) (h3c : lineCloses l3 = true) :
    reconstruct_added_rows (pre ++ l1 :: l2 :: l3 :: post)
      = [pyStrip l1 ++ ' ' :: (pyStrip l2 ++ ' ' :: pyStrip l3)] := by
  have hfold : primaryRows (pre ++ l1 :: l2 :: l3 :: post)
      = [pyStrip l1 ++ ' ' :: (pyStrip l2 ++ ' ' :: pyStrip l3)] := by
    unfold primaryRows
    rw [List.foldl_append, foldl_rowStep_skip ⟨[], false, []⟩ rfl pre hpre]
    simp only [List.foldl_cons]
    rw [rowStep_open_start h1o h1c,
      rowStep_collect_append h2o h2c rfl,
      rowStep_collect_close h3o h3c rfl,
      foldl_rowStep_skip _ rfl post hpost]
    simp [joinSpace, joinSep]
  simp [reconstruct_added_rows, hfold]

theorem claim9_witness :
    (∀ l ∈ [str "ctx"], lineOpens l = false)
    ∧ (∀ l ∈ [str "tail"], lineOpens l = false)
    ∧ lineOpens (str " <tr class=x>") = true ∧ lineCloses (str " <tr class=x>") = false
    ∧ lineOpens (str "<td>A</td>") = false ∧ lineCloses (str "<td>A</td>") = false
    ∧ lineOpens (str " </tr> ") = false ∧ lineCloses (str " </tr> ") = true
    ∧ reconstruct_added_rows
        ([str "ctx"] ++ str " <tr class=x>" :: str "<td>A</td>" :: str " </tr> " :: [str "tail"])
      = [pyStrip (str " <tr class=x>") ++ ' '
          :: (pyStrip (str "<td>A</td>") ++ ' ' :: pyStrip (str " </tr> "))] :=
  ⟨by decide, by decide, by decide, by decide, by decide, by decide, by decide, by decide,
    claim9_three_line_row [str "ctx"] [str "tail"] _ _ _
      (by decide) (by decide) (by decide) (by decide) (by decide) (by decide) (by decide)
      (by decide)⟩

/-- C10: when the primary strategy emits at least one row, the fallback is
not consulted and every emitted row contains the row-close marker; moreover
lines after a trailing row-open marker whose close marker never arrives are
silently discarded — appending such an unclosed tail changes nothing. -/
theorem claim10_unclosed_tail_discarded (lines : List (List Char))
    (l : List Char) (rest : List (List Char))
    (hne : primaryRows lines ≠ [])
    (hlo : lineOpens l = true) (hlc : lineCloses l = false)
    (hrest : ∀ r ∈ rest, lineCloses r = false) :
    reconstruct_added_rows (lines ++ l :: rest) = primaryRows lines
    ∧ ∀ row ∈ primaryRows lines, hasSubL (lowerL row) trClosePat = true := by
  have hrows : primaryRows (lines ++ l :: rest) = primaryRows lines := by
    unfold primaryRows
    rw [List.foldl_append]
    simp only [List.foldl_cons]
    rw [rowStep_open_start hlo hlc]
    rw [foldl_rowStep_no_close_rows rest hrest]
  constructor
  · rw [reconstruct_added_rows, hrows]
    simp [hne]
  · exact foldl_rowStep_rows_close lines ⟨[], false, []⟩ (by simp)

theorem claim10_witness :
    primaryRows [str "<tr><td>A</td></tr>"] ≠ []
    ∧ lineOpens (str "<tr>") = true ∧ lineCloses (str "<tr>") = false
    ∧ (∀ r ∈ [str "<td>B</td>"], lineCloses r = false)
    ∧ reconstruct_added_rows ([str "<tr><td>A</td></tr>"] ++ str "<tr>" :: [str "<td>B</td>"])
        = primaryRows [str "<tr><td>A</td></tr>"]
    ∧ ∀ row ∈ primaryRows [str "<tr><td>A</td></tr>"],
        hasSubL (lowerL row) trClosePat = true :=
  ⟨by decide, by decide, by decide, by decide,
    (claim10_unclosed_tail_discarded [str "<tr><td>A</td></tr>"] (str "<tr>")
      [str "<td>B</td>"] (by decide) (by decide) (by decide) (by decide)).1,
    (claim10_unclosed_tail_discarded [str "<tr><td>A</td></tr>"] (str "<tr>")
      [str "<td>B</td>"] (by decide) (by decide) (by decide) (by decide)).2⟩

/-! ## Character-level lemmas for the URL round trip -/

theorem char_eq_of_toNat {c d : Char} (h : c.toNat = d.toNat) : c = d := by
  apply Char.ext
  apply UInt32.eq_of_toBitVec_eq
  apply BitVec.eq_of_toNat_eq
  exact h

theorem toNat_ofNat_valid {n : Nat} (h : n < 55296) : (Char.ofNat n).toNat = n := by
  have hv : n.isValidChar := Or.inl h
  simp [Char.ofNat, hv, Char.ofNatAux, Char.toNat, UInt32.toNat, BitVec.toNat_ofNatLt]

theorem upper_toNat {c : Char} (h : 'A' ≤ c ∧ c ≤ 'Z') :
    65 ≤ c.toNat ∧ c.toNat ≤ 90 := ⟨h.1, h.2⟩

theorem asciiLower_toNat_of_upper {c : Char} (h : 'A' ≤ c ∧ c ≤ 'Z') :
    (asciiLower c).toNat = c.toNat + 32 := by
  have h2 : c.toNat ≤ 90 := h.2
  rw [asciiLower, if_pos h]
  exact toNat_ofNat_valid (by omega)

theorem asciiLower_eq_of_not_upper {c : Char} (h : ¬('A' ≤ c ∧ c ≤ 'Z')) :
    asciiLower c = c := by
  rw [asciiLower, if_neg h]

theorem asciiLower_idem (c : Char) : asciiLower (asciiLower c) = asciiLower c := by
  by_cases h : 'A' ≤ c ∧ c ≤ 'Z'
  · have h1 : (65 : Nat) ≤ c.toNat := h.1
    have h2 : c.toNat ≤ 90 := h.2
    have ht := asciiLower_toNat_of_upper h
    apply asciiLower_eq_of_not_upper
    intro hcon
    have ha : (65 : Nat) ≤ (asciiLower c).toNat := hcon.1
    have hz : (asciiLower c).toNat ≤ 90 := hcon.2
    omega
  · rw [asciiLower_eq_of_not_upper h, asciiLower_eq_of_not_upper h]

theorem lowerL_idem (l : List Char) : lowerL (lowerL l) = lowerL l := by
  simp only [lowerL, List.map_map]
  exact List.map_congr_left fun c _ => asciiLower_idem c

theorem lowerL_length (l : List Char) : (lowerL l).length = l.length :=
  List.length_map _ _

/-- `asciiLower` moves only characters into the band 97–122; a character that
is neither an upper- nor a lower-case ASCII letter is a fixed point reached
from itself alone. -/
theorem asciiLower_eq_iff {c d : Char}
    (hd : d.toNat < 97 ∨ 122 < d.toNat) (hd2 : d.toNat < 65 ∨ 90 < d.toNat) :
    asciiLower c = d ↔ c = d := by
  constructor
  · intro h
    by_cases hu : 'A' ≤ c ∧ c ≤ 'Z'
    · exfalso
      have ht := asciiLower_toNat_of_upper hu
      have h1 : (65 : Nat) ≤ c.toNat := hu.1
      have h2 : c.toNat ≤ 90 := hu.2
      rw [h] at ht
      omega
    · rwa [asciiLower_eq_of_not_upper hu] at h
  · intro h
    subst h
    apply asciiLower_eq_of_not_upper
    intro hcon
    have h1 : (65 : Nat) ≤ c.toNat := hcon.1
    have h2 : c.toNat ≤ 90 := hcon.2
    omega

theorem mem_lowerL_iff {d : Char} {l : List Char}
    (hd : d.toNat < 97 ∨ 122 < d.toNat) (hd2 : d.toNat < 65 ∨ 90 < d.toNat) :
    d ∈ lowerL l ↔ d ∈ l := by
  simp only [lowerL, List.mem_map]
  constructor
  · rintro ⟨c, hc, hEq⟩
    rwa [(asciiLower_eq_iff hd hd2).mp hEq] at hc
  · intro h
    exact ⟨d, h, (asciiLower_eq_iff hd hd2).mpr rfl⟩

theorem isDigit_iff {c : Char} : c.isDigit = true ↔ 48 ≤ c.toNat ∧ c.toNat ≤ 57 := by
  simp only [Char.isDigit, Bool.and_eq_true, decide_eq_true_eq, ge_iff_le]
  exact Iff.rfl

theorem isUpper_char_iff {c : Char} : ('A' ≤ c ∧ c ≤ 'Z') ↔ 65 ≤ c.toNat ∧ c.toNat ≤ 90 :=
  Iff.rfl

theorem lower_char_iff {c : Char} : ('a' ≤ c ∧ c ≤ 'f') ↔ 97 ≤ c.toNat ∧ c.toNat ≤ 102 :=
  Iff.rfl

theorem upperF_char_iff {c : Char} : ('A' ≤ c ∧ c ≤ 'F') ↔ 65 ≤ c.toNat ∧ c.toNat ≤ 70 :=
  Iff.rfl

theorem isHexDigitC_asciiLower {c : Char} (h : isHexDigitC c = true) :
    isHexDigitC (asciiLower c) = true := by
  simp only [isHexDigitC, Bool.or_eq_true, decide_eq_true_eq] at h ⊢
  rcases h with (h | h) | h
  · left; left
    obtain ⟨h1, h2⟩ := isDigit_iff.mp h
    rw [asciiLower_eq_of_not_upper (by
      intro hcon
      have : (65 : Nat) ≤ c.toNat := hcon.1
      omega)]
    exact h
  · left; right
    obtain ⟨h1, h2⟩ := lower_char_iff.mp h
    rw [asciiLower_eq_of_not_upper (by
      intro hcon
      have : c.toNat ≤ 90 := hcon.2
      omega)]
    exact h
  · left; right
    obtain ⟨h1, h2⟩ := upperF_char_iff.mp h
    have hu : 'A' ≤ c ∧ c ≤ 'Z' := isUpper_char_iff.mpr ⟨h1, by omega⟩
    have ht := asciiLower_toNat_of_upper hu
    exact lower_char_iff.mpr ⟨by omega, by omega⟩

/-! ## `splitFirst` lemmas -/

theorem splitFirst_of_not_mem {c : Char} {l : List Char} (h : c ∉ l) :
    splitFirst c l = none := by
  induction l with
  | nil => rfl
  | cons x xs ih =>
    have hx : ¬(x == c) = true := by
      simp only [beq_iff_eq]
      intro hEq
      exact h (hEq ▸ List.mem_cons_self x xs)
    simp only [splitFirst, hx]
    rw [if_neg (by simp [hx])]
    rw [ih fun hm => h (List.mem_cons_of_mem _ hm)]

theorem splitFirst_append_first {c : Char} {a : List Char} (h : c ∉ a)
    (b : List Char) : splitFirst c (a ++ c :: b) = some (a, b) := by
  induction a with
  | nil => simp [splitFirst]
  | cons x xs ih =>
    have hx : ¬x = c := fun hEq => h (hEq ▸ List.mem_cons_self x xs)
    have ih2 := ih fun hm => h (List.mem_cons_of_mem _ hm)
    simp only [List.cons_append, splitFirst]
    rw [if_neg (by simpa using hx)]
    simp only [List.append_eq]
    rw [ih2]

theorem splitFirst_parts {c : Char} {l a b : List Char}
    (h : splitFirst c l = some (a, b)) : l = a ++ c :: b ∧ c ∉ a := by
  induction l generalizing a with
  | nil => simp [splitFirst] at h
  | cons x xs ih =>
    by_cases hx : x = c
    · subst hx
      simp [splitFirst] at h
      obtain ⟨ha, hb⟩ := h
      subst ha; subst hb
      simp
    · simp only [splitFirst] at h
      rw [if_neg (by simpa using hx)] at h
      cases hs : splitFirst c xs with
      | none => rw [hs] at h; simp at h
      | some p =>
        obtain ⟨p1, p2⟩ := p
        rw [hs] at h
        simp only [Option.some.injEq, Prod.mk.injEq] at h
        obtain ⟨ha, hb⟩ := h
        subst hb
        obtain ⟨hxs, hnotin⟩ := ih hs
        subst ha
        constructor
        · simp [hxs]
        · intro hm
          rcases List.mem_cons.mp hm with hEq | hm2
          · exact hx hEq.symm
          · exact hnotin hm2

theorem splitFirst_map {c : Char} {f : Char → Char} {l : List Char}
    (hf : ∀ x, f x = c ↔ x = c) :
    splitFirst c (l.map f) = (splitFirst c l).map fun p => (p.1.map f, p.2.map f) := by
  induction l with
  | nil => rfl
  | cons x xs ih =>
    by_cases hx : x = c
    · subst hx
      have hfc : f x = x := (hf x).mpr rfl
      simp only [List.map_cons, hfc, splitFirst, if_pos (beq_self_eq_true x)]
      rfl
    · have hfx : ¬f x = c := fun hEq => hx ((hf x).mp hEq)
      simp only [List.map_cons, splitFirst]
      rw [if_neg (by simpa using hfx), if_neg (by simpa using hx), ih]
      cases splitFirst c xs <;> rfl

/-! ## `takeWhile` / `dropWhile` / `splitNetloc` lemmas -/

theorem mem_takeWhile_pred {p : Char → Bool} {l : List Char} {x : Char}
    (h : x ∈ l.takeWhile p) : p x = true := by
  induction l with
  | nil => simp at h
  | cons y ys ih =>
    by_cases hy : p y = true
    · rw [List.takeWhile_cons_of_pos hy] at h
      rcases List.mem_cons.mp h with hEq | hm
      · rwa [hEq]
      · exact ih hm
    · rw [List.takeWhile_cons_of_neg hy] at h
      simp at h

theorem takeWhile_append_all {p : Char → Bool} {a : List Char}
    (h : ∀ x ∈ a, p x = true) (b : List Char) :
    (a ++ b).takeWhile p = a ++ b.takeWhile p := by
  induction a with
  | nil => rfl
  | cons x xs ih =>
    rw [List.cons_append, List.takeWhile_cons_of_pos (h x (List.mem_cons_self x xs)),
      ih fun y hy => h y (List.mem_cons_of_mem _ hy), List.cons_append]

theorem dropWhile_append_all {p : Char → Bool} {a : List Char}
    (h : ∀ x ∈ a, p x = true) (b : List Char) :
    (a ++ b).dropWhile p = b.dropWhile p := by
  induction a with
  | nil => rfl
  | cons x xs ih =>
    rw [List.cons_append, List.dropWhile_cons_of_pos (h x (List.mem_cons_self x xs)),
      ih fun y hy => h y (List.mem_cons_of_mem _ hy)]

/-- `_splitnetloc` on a delimiter-free netloc followed by either nothing or a
delimiter-headed remainder. -/
theorem splitNetloc_append {h rest : List Char}
    (hh : ∀ c ∈ h, isNetlocDelim c = false)
    (hr : rest = [] ∨ ∃ d rest', rest = d :: rest' ∧ isNetlocDelim d = true) :
    splitNetloc (h ++ rest) = (h, rest) := by
  have hall : ∀ c ∈ h, (fun c => !isNetlocDelim c) c = true := by
    intro c hc
    simp [hh c hc]
  unfold splitNetloc
  rw [takeWhile_append_all hall, dropWhile_append_all hall]
  rcases hr with hr | ⟨d, rest', hr, hd⟩
  · subst hr
    simp
  · subst hr
    rw [List.takeWhile_cons_of_neg (by simp [hd]), List.dropWhile_cons_of_neg (by simp [hd])]
    simp

/-! ## Character-set facts about `quote_plus` output -/

theorem mem_toHex2_hexDigits {d : Char} {n : Nat} (h : d ∈ toHex2 n) :
    d ∈ hexDigits := by
  have h16 : ∀ i, i % 16 < 16 := fun i => Nat.mod_lt _ (by omega)
  have hlen : hexDigits.length = 16 := by decide
  simp only [toHex2, List.mem_cons, List.not_mem_nil, or_false] at h
  rcases h with h | h <;>
    · subst h
      rw [List.getD_eq_getElem _ _ (by omega)]
      exact List.getElem_mem _

theorem mem_quotePlus_cases {d : Char} {s : List Char} (h : d ∈ quotePlus s) :
    alwaysSafe d = true ∨ d = '+' ∨ d = '%' ∨ d ∈ hexDigits ∨ 256 ≤ d.toNat := by
  simp only [quotePlus, List.mem_flatten, List.mem_map] at h
  obtain ⟨piece, ⟨c, _, hpc⟩, hd⟩ := h
  subst hpc
  unfold quotePlusChar at hd
  split_ifs at hd with h1 h2 h3
  · simp only [List.mem_singleton] at hd
    subst hd
    exact Or.inl h1
  · simp only [List.mem_singleton] at hd
    subst hd
    exact Or.inr (Or.inl rfl)
  · rcases List.mem_cons.mp hd with hEq | hm
    · exact Or.inr (Or.inr (Or.inl hEq))
    · exact Or.inr (Or.inr (Or.inr (Or.inl (mem_toHex2_hexDigits hm))))
  · simp only [List.mem_singleton] at hd
    subst hd
    exact Or.inr (Or.inr (Or.inr (Or.inr (by omega))))

/-- The characters that can appear in an `urlencode` result: `quote_plus`
output plus the separators `&` and `=`. -/
theorem mem_joinSep {d : Char} {sep : Char} {ps : List (List Char)}
    (h : d ∈ joinSep sep ps) : d = sep ∨ ∃ p ∈ ps, d ∈ p := by
  induction ps with
  | nil => simp [joinSep] at h
  | cons x xs ih =>
    cases xs with
    | nil =>
      simp only [joinSep] at h
      exact Or.inr ⟨x, List.mem_cons_self _ _, h⟩
    | cons y ys =>
      simp only [joinSep, List.mem_append, List.mem_cons] at h
      rcases h with h | h | h
      · exact Or.inr ⟨x, List.mem_cons_self _ _, h⟩
      · exact Or.inl h
      · rcases ih h with hsep | ⟨p, hp, hdp⟩
        · exact Or.inl hsep
        · exact Or.inr ⟨p, List.mem_cons_of_mem _ hp, hdp⟩

theorem mem_pyUrlencode_cases {d : Char} {items : List (List Char × List Char)}
    (h : d ∈ pyUrlencode items) :
    d = '&' ∨ d = '='
      ∨ alwaysSafe d = true ∨ d = '+' ∨ d = '%' ∨ d ∈ hexDigits ∨ 256 ≤ d.toNat := by
  unfold pyUrlencode at h
  rcases mem_joinSep h with hsep | ⟨p, hp, hdp⟩
  · exact Or.inl hsep
  · simp only [List.mem_map] at hp
    obtain ⟨kv, _, hkv⟩ := hp
    subst hkv
    rcases List.mem_append.mp hdp with hk | hv
    · exact Or.inr (Or.inr (mem_quotePlus_cases hk))
    · rcases List.mem_cons.mp hv with hEq | hm
      · exact Or.inr (Or.inl hEq)
      · exact Or.inr (Or.inr (mem_quotePlus_cases hm))

theorem isUnsafeUrlByte_eq_false {d : Char} (h1 : d ≠ '\t') (h2 : d ≠ '\r')
    (h3 : d ≠ '\n') : isUnsafeUrlByte d = false := by
  simp [isUnsafeUrlByte, h1, h2, h3]

/-- Characters in an `urlencode` result are never `#`, tab, CR or LF (so the
rebuilt query survives `urlsplit`'s cleanup and fragment split intact). -/
theorem pyUrlencode_char_safe {d : Char} {items : List (List Char × List Char)}
    (h : d ∈ pyUrlencode items) :
    d ≠ '#' ∧ isUnsafeUrlByte d = false := by
  rcases mem_pyUrlencode_cases h with h | h | h | h | h | h | h
  · subst h; exact ⟨by decide, by decide⟩
  · subst h; exact ⟨by decide, by decide⟩
  · constructor
    · intro hEq; subst hEq; simp [alwaysSafe] at h
    · refine isUnsafeUrlByte_eq_false ?_ ?_ ?_ <;>
        (intro hEq; subst hEq; simp [alwaysSafe] at h)
  · subst h; exact ⟨by decide, by decide⟩
  · subst h; exact ⟨by decide, by decide⟩
  · constructor
    · intro hEq; subst hEq; simp [hexDigits, str] at h
    · refine isUnsafeUrlByte_eq_false ?_ ?_ ?_ <;>
        (intro hEq; subst hEq; simp [hexDigits, str] at h)
  · constructor
    · intro hEq
      subst hEq
      have : ('#' : Char).toNat = 35 := by decide
      omega
    · refine isUnsafeUrlByte_eq_false ?_ ?_ ?_ <;>
        (intro hEq; subst hEq; revert h; decide)

/-- `quote_plus` output never contains `&` or `=` (so `parse_qsl` recovers
the encoded pairs exactly). -/
theorem quotePlus_no_amp_eq {d : Char} {s : List Char} (h : d ∈ quotePlus s) :
    d ≠ '&' ∧ d ≠ '=' := by
  rcases mem_quotePlus_cases h with h | h | h | h | h
  · constructor <;> (intro hEq; subst hEq; simp [alwaysSafe] at h)
  · subst h; exact ⟨by decide, by decide⟩
  · subst h; exact ⟨by decide, by decide⟩
  · constructor <;> (intro hEq; subst hEq; simp [hexDigits, str] at h)
  · constructor <;>
      (intro hEq; subst hEq; revert h; decide)

/-! ## The `unquote_plus (quote_plus s) = s` round trip -/

theorem hexVal_getD : ∀ i, i < 16 → hexVal (hexDigits.getD i 'X') = some i := by
  decide

theorem getD_hexDigits_ne_plus : ∀ i, i < 16 → hexDigits.getD i 'X' ≠ '+' := by
  decide

theorem pyUnquote_cons_ne {c : Char} (h : c ≠ '%') (t : List Char) :
    pyUnquote (c :: t) = c :: pyUnquote t := by
  rw [pyUnquote.eq_def]
  split
  · simp_all
  · simp_all
  · next l c' rest heq h1 =>
    injection h1 with hc ht
    subst hc; subst ht
    rfl

theorem pyUnquote_pct {h1 h2 : Char} {a b : Nat} (ha : hexVal h1 = some a)
    (hb : hexVal h2 = some b) (t : List Char) :
    pyUnquote ('%' :: h1 :: h2 :: t) = Char.ofNat (16 * a + b) :: pyUnquote t := by
  rw [pyUnquote.eq_def]
  simp [ha, hb]

/-- The `+`-to-space substitution `unquote_plus` applies before unquoting. -/
def plusToSpace (c : Char) : Char := if c == '+' then ' ' else c

theorem unquotePlus_def (l : List Char) :
    unquotePlus l = pyUnquote (l.map plusToSpace) := rfl

theorem unquote_quote_chunk (c : Char) (t : List Char) :
    pyUnquote ((quotePlusChar c).map plusToSpace ++ t) = c :: pyUnquote t := by
  unfold quotePlusChar
  split_ifs with h1 h2 h3
  · have hplus : plusToSpace c = c := by
      unfold plusToSpace
      rw [if_neg]
      intro hc
      simp only [beq_iff_eq] at hc
      subst hc
      simp [alwaysSafe] at h1
    have hpct : c ≠ '%' := by intro hc; subst hc; simp [alwaysSafe] at h1
    simp only [List.map_cons, List.map_nil, List.cons_append, List.nil_append, hplus]
    exact pyUnquote_cons_ne hpct t
  · simp only [beq_iff_eq] at h2
    subst h2
    simp only [List.map_cons, List.map_nil, List.cons_append, List.nil_append]
    have : plusToSpace '+' = ' ' := by decide
    rw [this]
    exact pyUnquote_cons_ne (by decide) t
  · have hlt : c.toNat < 256 := h3
    have hdiv : c.toNat / 16 < 16 := by omega
    have hmod : c.toNat % 16 < 16 := Nat.mod_lt _ (by omega)
    have hdm : c.toNat / 16 % 16 = c.toNat / 16 := Nat.mod_eq_of_lt hdiv
    simp only [toHex2, List.map_cons, List.map_nil, List.cons_append, List.nil_append]
    have hp1 : plusToSpace '%' = '%' := by decide
    have hp2 : plusToSpace (hexDigits.getD (c.toNat / 16 % 16) 'X')
        = hexDigits.getD (c.toNat / 16 % 16) 'X' := by
      unfold plusToSpace
      rw [if_neg]
      simp only [beq_iff_eq]
      rw [hdm]
      exact getD_hexDigits_ne_plus _ hdiv
    have hp3 : plusToSpace (hexDigits.getD (c.toNat % 16) 'X')
        = hexDigits.getD (c.toNat % 16) 'X' := by
      unfold plusToSpace
      rw [if_neg]
      simp only [beq_iff_eq]
      exact getD_hexDigits_ne_plus _ hmod
    rw [hp1, hp2, hp3]
    rw [pyUnquote_pct (hexVal_getD _ (by rw [hdm]; exact hdiv)) (hexVal_getD _ hmod)]
    congr 1
    rw [hdm, Nat.div_add_mod]
    exact Char.ofNat_toNat c
  · have hplus : plusToSpace c = c := by
      unfold plusToSpace
      rw [if_neg]
      intro hc
      simp only [beq_iff_eq] at hc
      subst hc
      revert h3
      decide
    have hpct : c ≠ '%' := by
      intro hc
      subst hc
      revert h3
      decide
    simp only [List.map_cons, List.map_nil, List.cons_append, List.nil_append, hplus]
    exact pyUnquote_cons_ne hpct t

theorem unquotePlus_quotePlus (s : List Char) : unquotePlus (quotePlus s) = s := by
  induction s with
  | nil => rfl
  | cons c cs ih =>
    have hq : quotePlus (c :: cs) = quotePlusChar c ++ quotePlus cs := by
      simp [quotePlus]
    rw [unquotePlus_def, hq, List.map_append, unquote_quote_chunk]
    rw [← unquotePlus_def, ih]

/-! ## `str.split('&')` / `'&'.join` round trip and query re-encoding -/

theorem splitSepAux_no_sep {sep : Char} {l : List Char} (h : sep ∉ l)
    (acc : List Char) : splitSepAux sep l acc = [acc.reverse ++ l] := by
  induction l generalizing acc with
  | nil => simp [splitSepAux]
  | cons x xs ih =>
    have hx : ¬(x == sep) = true := by
      simp only [beq_iff_eq]
      intro hEq
      exact h (hEq ▸ List.mem_cons_self x xs)
    simp only [splitSepAux]
    rw [if_neg (by simpa using hx)]
    rw [ih fun hm => h (List.mem_cons_of_mem _ hm)]
    simp

theorem splitSepAux_chunk {sep : Char} {x : List Char} (h : sep ∉ x)
    (r : List Char) (acc : List Char) :
    splitSepAux sep (x ++ sep :: r) acc
      = (acc.reverse ++ x) :: splitSepAux sep r [] := by
  induction x generalizing acc with
  | nil =>
    simp only [List.nil_append, splitSepAux]
    rw [if_pos (beq_self_eq_true sep)]
    simp
  | cons y ys ih =>
    have hy : ¬(y == sep) = true := by
      simp only [beq_iff_eq]
      intro hEq
      exact h (hEq ▸ List.mem_cons_self y ys)
    simp only [List.cons_append, splitSepAux]
    rw [if_neg (by simpa using hy)]
    simp only [List.append_eq]
    rw [ih (fun hm => h (List.mem_cons_of_mem _ hm)) (y :: acc)]
    simp

theorem splitSep_joinSep {sep : Char} {ps : List (List Char)} (hne : ps ≠ [])
    (h : ∀ p ∈ ps, sep ∉ p) :
    splitSepAux sep (joinSep sep ps) [] = ps := by
  induction ps with
  | nil => exact absurd rfl hne
  | cons x xs ih =>
    cases xs with
    | nil =>
      simp only [joinSep]
      rw [splitSepAux_no_sep (h x (List.mem_cons_self x _)) []]
      simp
    | cons y ys =>
      simp only [joinSep]
      rw [splitSepAux_chunk (h x (List.mem_cons_self x _)) _ []]
      rw [ih (by simp) fun p hp => h p (List.mem_cons_of_mem _ hp)]
      simp

theorem pyParseQsl_pyUrlencode (items : List (List Char × List Char)) :
    pyParseQsl (pyUrlencode items) = items := by
  cases items with
  | nil => rfl
  | cons kv rest =>
    have hpieces : ∀ p ∈ (kv :: rest).map
        (fun kv => quotePlus kv.1 ++ '=' :: quotePlus kv.2), '&' ∉ p := by
      intro p hp hm
      simp only [List.mem_map] at hp
      obtain ⟨kv', _, hkv⟩ := hp
      subst hkv
      rcases List.mem_append.mp hm with hk | hv
      · exact (quotePlus_no_amp_eq hk).1 rfl
      · rcases List.mem_cons.mp hv with hEq | hm2
        · exact absurd hEq.symm (by decide)
        · exact (quotePlus_no_amp_eq hm2).1 rfl
    have hqs : pyUrlencode (kv :: rest) ≠ [] := by
      unfold pyUrlencode
      simp only [List.map_cons]
      cases hrest : rest.map (fun kv => quotePlus kv.1 ++ '=' :: quotePlus kv.2) with
      | nil => simp [joinSep]
      | cons z zs =>
        simp only [joinSep]
        intro hcon
        exact absurd (congrArg List.length hcon) (by simp)
    unfold pyParseQsl
    rw [if_neg hqs]
    unfold pyUrlencode
    rw [splitSep_joinSep (by simp) (by simpa [pyUrlencode] using hpieces)]
    rw [List.filter_eq_self.mpr ?hne]
    case hne =>
      intro p hp
      simp only [List.mem_map] at hp
      obtain ⟨kv', _, hkv⟩ := hp
      subst hkv
      simp
    rw [List.map_map]
    apply List.map_congr_left ?_ |>.trans (List.map_id _)
    intro kv' _
    simp only [Function.comp_apply]
    rw [splitFirst_append_first (fun hm => (quotePlus_no_amp_eq hm).2 rfl) _]
    simp only [id]
    rw [unquotePlus_quotePlus, unquotePlus_quotePlus]

theorem filterTracking_idem (items : List (List Char × List Char)) :
    filterTracking (filterTracking items) = filterTracking items := by
  unfold filterTracking
  induction items with
  | nil => rfl
  | cons kv rest ih =>
    by_cases h : isTrackingKey kv.1 = true
    · simp [List.filter_cons, h, ih]
    · simp only [Bool.not_eq_true] at h
      simp [List.filter_cons, h, ih]

/-- Re-parsing, re-filtering and re-encoding the query of a normalized URL
reproduces it exactly. -/
theorem requery (q : List Char) :
    pyUrlencode (filterTracking (pyParseQsl
      (pyUrlencode (filterTracking (pyParseQsl q)))))
      = pyUrlencode (filterTracking (pyParseQsl q)) := by
  rw [pyParseQsl_pyUrlencode, filterTracking_idem]

/-! ## Lower-casing a netloc preserves the facts `urlsplit` checked -/

theorem isNetlocDelim_asciiLower {c : Char} (h : isNetlocDelim c = false) :
    isNetlocDelim (asciiLower c) = false := by
  simp only [isNetlocDelim, Bool.or_eq_false_iff, beq_eq_false_iff_ne, ne_eq] at h ⊢
  obtain ⟨⟨h1, h2⟩, h3⟩ := h
  refine ⟨⟨?_, ?_⟩, ?_⟩ <;> intro hEq
  · exact h1 ((asciiLower_eq_iff (by decide) (by decide)).mp hEq)
  · exact h2 ((asciiLower_eq_iff (by decide) (by decide)).mp hEq)
  · exact h3 ((asciiLower_eq_iff (by decide) (by decide)).mp hEq)

theorem isUnsafeUrlByte_asciiLower {c : Char} (h : isUnsafeUrlByte c = false) :
    isUnsafeUrlByte (asciiLower c) = false := by
  simp only [isUnsafeUrlByte, Bool.or_eq_false_iff, beq_eq_false_iff_ne, ne_eq] at h ⊢
  obtain ⟨⟨h1, h2⟩, h3⟩ := h
  refine ⟨⟨?_, ?_⟩, ?_⟩ <;> intro hEq
  · exact h1 ((asciiLower_eq_iff (by decide) (by decide)).mp hEq)
  · exact h2 ((asciiLower_eq_iff (by decide) (by decide)).mp hEq)
  · exact h3 ((asciiLower_eq_iff (by decide) (by decide)).mp hEq)

theorem contains_eq_of_mem_iff {c : Char} {l1 l2 : List Char}
    (h : c ∈ l1 ↔ c ∈ l2) : l1.contains c = l2.contains c := by
  by_cases hm : c ∈ l2
  · have e1 : l1.contains c = true := List.elem_iff.mpr (h.mpr hm)
    have e2 : l2.contains c = true := List.elem_iff.mpr hm
    rw [e1, e2]
  · have e1 : l1.contains c = false := by
      rw [← Bool.not_eq_true]
      intro hc
      exact hm (h.mp (List.elem_iff.mp hc))
    have e2 : l2.contains c = false := by
      rw [← Bool.not_eq_true]
      intro hc
      exact hm (List.elem_iff.mp hc)
    rw [e1, e2]

theorem asciiLower_fix_iff {d : Char} (hd : d.toNat < 97 ∨ 122 < d.toNat)
    (hd2 : d.toNat < 65 ∨ 90 < d.toNat) : ∀ x, asciiLower x = d ↔ x = d :=
  fun _ => asciiLower_eq_iff hd hd2

theorem splitFirst_map_none {c : Char} {f : Char → Char} {l : List Char}
    (hf : ∀ x, f x = c ↔ x = c) (h : splitFirst c l = none) :
    splitFirst c (l.map f) = none := by
  rw [splitFirst_map hf, h]
  rfl

theorem splitFirst_map_some {c : Char} {f : Char → Char} {l a b : List Char}
    (hf : ∀ x, f x = c ↔ x = c) (h : splitFirst c l = some (a, b)) :
    splitFirst c (l.map f) = some (a.map f, b.map f) := by
  rw [splitFirst_map hf, h]
  rfl

theorem bracketedHost_lowerL (nl : List Char) :
    bracketedHost (lowerL nl) = lowerL (bracketedHost nl) := by
  have hob : ∀ x, asciiLower x = '[' ↔ x = '[' :=
    asciiLower_fix_iff (by decide) (by decide)
  have hcb : ∀ x, asciiLower x = ']' ↔ x = ']' :=
    asciiLower_fix_iff (by decide) (by decide)
  unfold bracketedHost
  rw [show lowerL nl = nl.map asciiLower from rfl]
  cases hs : splitFirst '[' nl with
  | none =>
    rw [splitFirst_map_none hob hs]
    rfl
  | some p =>
    obtain ⟨p1, p2⟩ := p
    rw [splitFirst_map_some hob hs]
    dsimp only
    cases hs2 : splitFirst ']' p2 with
    | none =>
      rw [splitFirst_map_none hcb hs2]
      rfl
    | some q =>
      obtain ⟨q1, q2⟩ := q
      rw [splitFirst_map_some hcb hs2]
      rfl

theorem checkBracketedHost_lowerL {host : List Char}
    (h : checkBracketedHost host = true) :
    checkBracketedHost (lowerL host) = true := by
  have hdot : ∀ x, asciiLower x = '.' ↔ x = '.' :=
    asciiLower_fix_iff (by decide) (by decide)
  unfold checkBracketedHost at h ⊢
  by_cases hv : host.head? = some 'v'
  · rw [if_pos hv] at h
    cases host with
    | nil => simp at hv
    | cons c t =>
      simp only [List.head?_cons, Option.some.injEq] at hv
      subst hv
      have hlc : asciiLower 'v' = 'v' := by decide
      rw [if_pos (by simp [lowerL, hlc])]
      have hdrop1 : ('v' :: t).drop 1 = t := rfl
      have hdrop2 : (lowerL ('v' :: t)).drop 1 = t.map asciiLower := by
        simp [lowerL]
      rw [hdrop1] at h
      rw [hdrop2]
      cases hs : splitFirst '.' t with
      | none =>
        rw [hs] at h
        exact absurd h (by decide)
      | some p =>
        obtain ⟨p1, p2⟩ := p
        rw [splitFirst_map_some hdot hs]
        rw [hs] at h
        simp only [Bool.and_eq_true, decide_eq_true_eq, ne_eq] at h ⊢
        obtain ⟨⟨h1, h2⟩, h3⟩ := h
        refine ⟨⟨by simpa using h1, ?_⟩, by simpa using h3⟩
        rw [List.all_eq_true] at h2 ⊢
        intro x hx
        simp only [List.mem_map] at hx
        obtain ⟨y, hy, hxy⟩ := hx
        subst hxy
        exact isHexDigitC_asciiLower (h2 y hy)
  · rw [if_neg hv] at h
    simp only [Bool.and_eq_true, decide_eq_true_eq, ne_eq] at h
    obtain ⟨⟨h1, h2⟩, h3⟩ := h
    have hv2 : ¬(lowerL host).head? = some 'v' := by
      cases host with
      | nil => simp [lowerL]
      | cons c t =>
        simp only [List.head?_cons, Option.some.injEq] at hv
        simp only [lowerL, List.map_cons, List.head?_cons, Option.some.injEq]
        intro hc
        rw [List.all_eq_true] at h2
        have hcset := h2 c (List.mem_cons_self c t)
        have hcv : c = 'v' ∨ c = 'V' := by
          by_cases hu : 'A' ≤ c ∧ c ≤ 'Z'
          · right
            have ht := asciiLower_toNat_of_upper hu
            rw [hc] at ht
            have e1 : ('v' : Char).toNat = 118 := by decide
            have e2 : ('V' : Char).toNat = 86 := by decide
            apply char_eq_of_toNat
            omega
          · left
            rwa [asciiLower_eq_of_not_upper hu] at hc
        rcases hcv with hEq | hEq <;> subst hEq
        · exact hv rfl
        · exact absurd hcset (by decide)
    rw [if_neg hv2]
    simp only [Bool.and_eq_true, decide_eq_true_eq, ne_eq]
    have hcont : (lowerL host).contains ':' = host.contains ':' :=
      contains_eq_of_mem_iff (mem_lowerL_iff (by decide) (by decide))
    refine ⟨⟨by simpa [lowerL] using h1, ?_⟩, ?_⟩
    · rw [List.all_eq_true] at h2 ⊢
      intro x hx
      simp only [lowerL, List.mem_map] at hx
      obtain ⟨y, hy, hxy⟩ := hx
      subst hxy
      have hcy := h2 y hy
      simp only [Bool.or_eq_true, decide_eq_true_eq] at hcy ⊢
      rcases hcy with (hh | hEq) | hEq
      · left; left
        exact isHexDigitC_asciiLower hh
      · left; right
        rw [beq_iff_eq] at hEq ⊢
        subst hEq
        decide
      · right
        rw [beq_iff_eq] at hEq ⊢
        subst hEq
        decide
    · rw [hcont]
      exact h3

theorem bracketViolation_lowerL {nl : List Char}
    (h : bracketViolation nl = false) : bracketViolation (lowerL nl) = false := by
  have hcb1 : (lowerL nl).contains '[' = nl.contains '[' :=
    contains_eq_of_mem_iff (mem_lowerL_iff (by decide) (by decide))
  have hcb2 : (lowerL nl).contains ']' = nl.contains ']' :=
    contains_eq_of_mem_iff (mem_lowerL_iff (by decide) (by decide))
  unfold bracketViolation at h ⊢
  rw [hcb1, hcb2, bracketedHost_lowerL]
  simp only [Bool.or_eq_false_iff] at h ⊢
  obtain ⟨⟨h1, h2⟩, h3⟩ := h
  refine ⟨⟨h1, h2⟩, ?_⟩
  cases hc1 : nl.contains '[' with
  | false => simp [hc1]
  | true =>
    cases hc2 : nl.contains ']' with
    | false => simp [hc2]
    | true =>
      rw [hc1, hc2] at h3
      simp only [Bool.true_and] at h3
      have hE : checkBracketedHost (bracketedHost nl) = true := by
        cases hE : checkBracketedHost (bracketedHost nl) with
        | true => rfl
        | false =>
          rw [hE] at h3
          simp at h3
      rw [checkBracketedHost_lowerL hE]
      simp

/-! ## `rstrip('/')` facts -/

theorem dropWhile_idem (p : Char → Bool) :
    ∀ l : List Char, (l.dropWhile p).dropWhile p = l.dropWhile p
  | [] => rfl
  | c :: t => by
    by_cases hc : p c = true
    · rw [List.dropWhile_cons_of_pos hc]
      exact dropWhile_idem p t
    · rw [List.dropWhile_cons_of_neg (by simp [hc]),
        List.dropWhile_cons_of_neg (by simp [hc])]

theorem rstripSlashes_subset (p : List Char) : rstripSlashes p ⊆ p := by
  intro c hc
  unfold rstripSlashes at hc
  rw [List.mem_reverse] at hc
  have hm := (List.dropWhile_sublist (l := p.reverse) (p := (· == '/'))).subset hc
  rwa [List.mem_reverse] at hm

theorem rstripSlashes_leading (p : List Char) : rstripSlashes p <+: p := by
  unfold rstripSlashes
  rw [← List.reverse_reverse p]
  rw [ List.reverse_prefix]
  simp only [List.reverse_reverse]
  exact List.dropWhile_suffix _

theorem rstripOrPath_subset (p : List Char) : rstripOrPath p ⊆ p := by
  unfold rstripOrPath
  split
  · exact fun c hc => hc
  · exact rstripSlashes_subset p

theorem rstripOrPath_head {p : List Char} (h : p = [] ∨ p.head? = some '/') :
    rstripOrPath p = [] ∨ (rstripOrPath p).head? = some '/' := by
  rcases h with h | h
  · subst h
    left
    rfl
  · unfold rstripOrPath
    split
    · right
      exact h
    · next hne =>
      right
      obtain ⟨t, ht⟩ := rstripSlashes_leading p
      cases hr : rstripSlashes p with
      | nil => exact absurd hr hne
      | cons c cs =>
        rw [hr] at ht
        rw [← ht] at h
        simpa using h

theorem rstripSlashes_idem (p : List Char) :
    rstripSlashes (rstripSlashes p) = rstripSlashes p := by
  unfold rstripSlashes
  rw [List.reverse_reverse, dropWhile_idem]

theorem rstripOrPath_idem (p : List Char) :
    rstripOrPath (rstripOrPath p) = rstripOrPath p := by
  by_cases h : rstripSlashes p = []
  · have hp : rstripOrPath p = p := by rw [rstripOrPath, if_pos h]
    rw [hp, hp]
  · have hp : rstripOrPath p = rstripSlashes p := by rw [rstripOrPath, if_neg h]
    rw [hp, rstripOrPath, rstripSlashes_idem, if_neg h]

/-! ## `urlsplit` recovers the components of a rebuilt URL -/

theorem dropWhile_eq_self_of_head {p : Char → Bool} {l : List Char} {c : Char}
    (hh : l.head? = some c) (hc : p c = false) : l.dropWhile p = l := by
  cases l with
  | nil => rfl
  | cons x t =>
    simp only [List.head?_cons, Option.some.injEq] at hh
    subst hh
    exact List.dropWhile_cons_of_neg (by simp [hc])

theorem splitFragQuery_recover {np q' : List Char}
    (hnp_noq : '?' ∉ np) (hnp_nof : '#' ∉ np) (hq_nof : '#' ∉ q') :
    splitFragQuery (np ++ (if q' = [] then [] else '?' :: q')) = (np, q', []) := by
  by_cases hq : q' = []
  · subst hq
    rw [if_pos rfl, List.append_nil]
    unfold splitFragQuery
    rw [splitFirst_of_not_mem hnp_nof]
    dsimp only
    rw [splitFirst_of_not_mem hnp_noq]
  · rw [if_neg hq]
    have hnof : '#' ∉ np ++ '?' :: q' := by
      intro hm
      rcases List.mem_append.mp hm with hm | hm
      · exact hnp_nof hm
      · rcases List.mem_cons.mp hm with hEq | hm
        · exact absurd hEq (by decide)
        · exact hq_nof hm
    unfold splitFragQuery
    rw [splitFirst_of_not_mem hnof]
    dsimp only
    rw [splitFirst_append_first hnp_noq]

theorem schemeSplit_recover {ls R : List Char} (hne : ls ≠ []) (hcolon : ':' ∉ ls)
    (hsch : ls.all isSchemeChar = true)
    (halpha : ∀ c t, ls = c :: t → c.isAlpha = true)
    (hlower : lowerL ls = ls) :
    schemeSplit (ls ++ ':' :: R) = (ls, R) := by
  obtain ⟨c, t, hct⟩ : ∃ c t, ls = c :: t := by
    cases ls with
    | nil => exact absurd rfl hne
    | cons c t => exact ⟨c, t, rfl⟩
  have hhead : (ls ++ ':' :: R).head? = some c := by rw [hct]; rfl
  have hemp : ls.isEmpty = false := by rw [hct]; rfl
  unfold schemeSplit
  rw [splitFirst_append_first hcolon]
  dsimp only
  rw [hhead, hemp]
  dsimp only
  rw [hsch, halpha c t hct]
  simp [hlower]

/-- `urlsplit` applied to `scheme://netloc + path + optional-query`, under the
structural conditions the normalizer's output satisfies, returns exactly those
components. -/
theorem pyUrlsplit_recover (ls lh np q' : List Char)
    (hls_ne : ls ≠ []) (hls_colon : ':' ∉ ls)
    (hls_scheme : ls.all isSchemeChar = true)
    (hls_head : ∀ c t, ls = c :: t → c.isAlpha = true ∧ isC0OrSpace c = false)
    (hls_lower : lowerL ls = ls) (hls_safe : ∀ c ∈ ls, isUnsafeUrlByte c = false)
    (hlh_delim : ∀ c ∈ lh, isNetlocDelim c = false)
    (hlh_safe : ∀ c ∈ lh, isUnsafeUrlByte c = false)
    (hlh_br : bracketViolation lh = false)
    (hnp : np = [] ∨ np.head? = some '/')
    (hnp_noq : '?' ∉ np) (hnp_nof : '#' ∉ np)
    (hnp_safe : ∀ c ∈ np, isUnsafeUrlByte c = false)
    (hq_nof : '#' ∉ q') (hq_safe : ∀ c ∈ q', isUnsafeUrlByte c = false) :
    pyUrlsplit (ls ++ ':' :: '/' :: '/' :: (lh ++ (np
        ++ (if q' = [] then [] else '?' :: q'))))
      = .ok ⟨ls, lh, np, q', []⟩ := by
  set qpart := (if q' = [] then [] else '?' :: q') with hqpart
  set n := ls ++ ':' :: '/' :: '/' :: (lh ++ (np ++ qpart)) with hn
  obtain ⟨c, t, hct⟩ : ∃ c t, ls = c :: t := by
    cases ls with
    | nil => exact absurd rfl hls_ne
    | cons c t => exact ⟨c, t, rfl⟩
  have hhead : n.head? = some c := by rw [hn, hct]; rfl
  have hdrop : n.dropWhile isC0OrSpace = n :=
    dropWhile_eq_self_of_head hhead (hls_head c t hct).2
  have hq_mem : ∀ d ∈ qpart, isUnsafeUrlByte d = false := by
    intro d hd
    rw [hqpart] at hd
    by_cases hq : q' = []
    · rw [if_pos hq] at hd
      simp at hd
    · rw [if_neg hq] at hd
      rcases List.mem_cons.mp hd with hEq | hm
      · subst hEq
        decide
      · exact hq_safe d hm
  have hfilter : n.filter (fun d => !isUnsafeUrlByte d) = n := by
    rw [List.filter_eq_self]
    intro d hd
    rw [hn] at hd
    rcases List.mem_append.mp hd with hm | hm
    · simp [hls_safe d hm]
    · rcases List.mem_cons.mp hm with hEq | hm
      · subst hEq
        decide
      · rcases List.mem_cons.mp hm with hEq | hm
        · subst hEq
          decide
        · rcases List.mem_cons.mp hm with hEq | hm
          · subst hEq
            decide
          · rcases List.mem_append.mp hm with hm | hm
            · simp [hlh_safe d hm]
            · rcases List.mem_append.mp hm with hm | hm
              · simp [hnp_safe d hm]
              · simp [hq_mem d hm]
  have hss : schemeSplit n = (ls, '/' :: '/' :: (lh ++ (np ++ qpart))) := by
    rw [hn]
    exact schemeSplit_recover hls_ne hls_colon hls_scheme
      (fun c' t' hct' => (hls_head c' t' hct').1) hls_lower
  have hrest_head : np ++ qpart = [] ∨ ∃ d r', np ++ qpart = d :: r'
      ∧ isNetlocDelim d = true := by
    rcases hnp with hhe | hh
    · subst hhe
      rw [List.nil_append, hqpart]
      by_cases hq : q' = []
      · rw [if_pos hq]
        exact Or.inl rfl
      · rw [if_neg hq]
        exact Or.inr ⟨'?', q', rfl, by decide⟩
    · cases np with
      | nil => simp at hh
      | cons d r' =>
        simp only [List.head?_cons, Option.some.injEq] at hh
        subst hh
        exact Or.inr ⟨'/', r' ++ qpart, by simp, by decide⟩
  have hsn : splitNetloc (lh ++ (np ++ qpart)) = (lh, np ++ qpart) :=
    splitNetloc_append hlh_delim hrest_head
  have hsf : splitFragQuery (np ++ qpart) = (np, q', []) := by
    rw [hqpart]
    exact splitFragQuery_recover hnp_noq hnp_nof hq_nof
  have hclean : pyUrlsplitClean n = n := by
    unfold pyUrlsplitClean
    rw [hdrop, hfilter]
  unfold pyUrlsplit
  rw [hclean, hss]
  unfold pyUrlsplitAfterScheme
  dsimp only
  rw [if_pos (by simp [startsWithL, str])]
  have hdrop2 : ('/' :: '/' :: (lh ++ (np ++ qpart))).drop 2 = lh ++ (np ++ qpart) := rfl
  rw [hdrop2, hsn]
  dsimp only
  rw [if_neg (by rw [hlh_br]; exact Bool.false_ne_true), hsf]

/-! ## Inversion: facts guaranteed by a successful `urlsplit` -/

theorem splitFirst_ne_none_of_mem {c : Char} {l : List Char} (hm : c ∈ l) :
    splitFirst c l ≠ none := by
  induction l with
  | nil => simp at hm
  | cons x xs ih =>
    by_cases hx : x = c
    · subst hx
      simp [splitFirst]
    · simp only [splitFirst]
      rw [if_neg (by simp [hx])]
      rcases List.mem_cons.mp hm with hEq | hm2
      · exact absurd hEq.symm hx
      · cases hs : splitFirst c xs with
        | none => exact absurd hs (ih hm2)
        | some p => simp

theorem splitFirst_none_not_mem {c : Char} {l : List Char}
    (h : splitFirst c l = none) : c ∉ l :=
  fun hm => splitFirst_ne_none_of_mem hm h

theorem head_append_of_ne_nil {a : List Char} (h : a ≠ []) (b : List Char) :
    (a ++ b).head? = a.head? := by
  cases a with
  | nil => exact absurd rfl h
  | cons x xs => rfl

theorem dropWhile_head {p : Char → Bool} (l : List Char) :
    l.dropWhile p = [] ∨ ∃ c t, l.dropWhile p = c :: t ∧ p c = false := by
  induction l with
  | nil => exact Or.inl rfl
  | cons x xs ih =>
    by_cases hx : p x = true
    · rw [List.dropWhile_cons_of_pos hx]
      exact ih
    · rw [List.dropWhile_cons_of_neg (by simp [hx])]
      exact Or.inr ⟨x, xs, rfl, by simpa using hx⟩

theorem splitFragQuery_path_facts (u : List Char) :
    '#' ∉ (splitFragQuery u).1 ∧ '?' ∉ (splitFragQuery u).1
    ∧ (splitFragQuery u).1 ⊆ u
    ∧ ((splitFragQuery u).1 ≠ [] → (splitFragQuery u).1.head? = u.head?) := by
  unfold splitFragQuery
  cases hf : splitFirst '#' u with
  | none =>
    dsimp only
    cases hq : splitFirst '?' u with
    | none =>
      dsimp only
      exact ⟨splitFirst_none_not_mem hf, splitFirst_none_not_mem hq,
        fun x hx => hx, fun _ => rfl⟩
    | some pq =>
      dsimp only
      obtain ⟨hu, hnoq⟩ := splitFirst_parts (show splitFirst '?' u = some (pq.1, pq.2) from hq)
      have hsub : pq.1 ⊆ u := by
        rw [hu]
        exact fun x hx => List.mem_append_left _ hx
      refine ⟨fun hm => splitFirst_none_not_mem hf (hsub hm), hnoq, hsub, ?_⟩
      intro hne
      rw [hu]
      exact (head_append_of_ne_nil hne _).symm
  | some uf =>
    dsimp only
    obtain ⟨hu, hnof⟩ := splitFirst_parts (show splitFirst '#' u = some (uf.1, uf.2) from hf)
    have hsub1 : uf.1 ⊆ u := by
      rw [hu]
      exact fun x hx => List.mem_append_left _ hx
    cases hq : splitFirst '?' uf.1 with
    | none =>
      dsimp only
      refine ⟨hnof, splitFirst_none_not_mem hq, hsub1, ?_⟩
      intro hne
      rw [hu]
      exact (head_append_of_ne_nil hne _).symm
    | some pq =>
      dsimp only
      obtain ⟨hu1, hnoq⟩ := splitFirst_parts (show splitFirst '?' uf.1 = some (pq.1, pq.2) from hq)
      have hsub2 : pq.1 ⊆ uf.1 := by
        rw [hu1]
        exact fun x hx => List.mem_append_left _ hx
      refine ⟨fun hm => hnof (hsub2 hm), hnoq, fun x hx => hsub1 (hsub2 hx), ?_⟩
      intro hne
      rw [hu, hu1]
      rw [head_append_of_ne_nil (by simp [hne]) _, head_append_of_ne_nil hne _]

theorem schemeSplit_snd_subset (u : List Char) : (schemeSplit u).2 ⊆ u := by
  unfold schemeSplit
  cases hs : splitFirst ':' u with
  | none => exact fun x hx => hx
  | some p =>
    dsimp only
    split
    · obtain ⟨hu, _⟩ := splitFirst_parts (show splitFirst ':' u = some (p.1, p.2) from hs)
      intro x hx
      rw [hu]
      exact List.mem_append_right _ (List.mem_cons_of_mem _ hx)
    · exact fun x hx => hx

theorem schemeSplit_fst_lower (u : List Char) :
    lowerL (schemeSplit u).1 = (schemeSplit u).1 := by
  unfold schemeSplit
  cases splitFirst ':' u with
  | none => rfl
  | some p =>
    dsimp only
    split
    · exact lowerL_idem _
    · rfl

theorem isNetlocDelim_cases {c : Char} (h : isNetlocDelim c = true) :
    c = '/' ∨ c = '?' ∨ c = '#' := by
  simp only [isNetlocDelim, Bool.or_eq_true, beq_iff_eq] at h
  tauto

/-- The structural facts about the parts of a URL that `urlsplit` accepted
with a nonempty netloc. -/
theorem pyUrlsplit_ok_facts {t : List Char} {parts : UrlParts}
    (h : pyUrlsplit t = .ok parts) (hnet : parts.netloc ≠ []) :
    (∀ c ∈ parts.netloc, isNetlocDelim c = false)
    ∧ (∀ c ∈ parts.netloc, isUnsafeUrlByte c = false)
    ∧ bracketViolation parts.netloc = false
    ∧ (parts.path = [] ∨ parts.path.head? = some '/')
    ∧ '?' ∉ parts.path ∧ '#' ∉ parts.path
    ∧ (∀ c ∈ parts.path, isUnsafeUrlByte c = false)
    ∧ lowerL parts.scheme = parts.scheme
    ∧ parts.fragment = parts.fragment := by
  unfold pyUrlsplit pyUrlsplitAfterScheme at h
  by_cases hstart : startsWithL (schemeSplit (pyUrlsplitClean t)).2 (str "//") = true
  · rw [if_pos hstart] at h
    by_cases hbr : bracketViolation
        (splitNetloc ((schemeSplit (pyUrlsplitClean t)).2.drop 2)).1 = true
    · rw [if_pos hbr] at h
      simp at h
    · rw [if_neg (by simpa using hbr)] at h
      simp only [Except.ok.injEq] at h
      subst h
      have hmemclean : ∀ c ∈ pyUrlsplitClean t, isUnsafeUrlByte c = false := by
        intro c hc
        unfold pyUrlsplitClean at hc
        have := List.of_mem_filter hc
        simpa using this
      have hsub_netloc :
          (splitNetloc ((schemeSplit (pyUrlsplitClean t)).2.drop 2)).1 ⊆
            pyUrlsplitClean t := by
        intro c hc
        unfold splitNetloc at hc
        have h1 := (List.takeWhile_sublist _).subset hc
        have h2 := List.drop_subset 2 (schemeSplit (pyUrlsplitClean t)).2 h1
        exact schemeSplit_snd_subset _ h2
      have hsub_rest :
          (splitNetloc ((schemeSplit (pyUrlsplitClean t)).2.drop 2)).2 ⊆
            pyUrlsplitClean t := by
        intro c hc
        unfold splitNetloc at hc
        have h1 := (List.dropWhile_sublist _).subset hc
        have h2 := List.drop_subset 2 (schemeSplit (pyUrlsplitClean t)).2 h1
        exact schemeSplit_snd_subset _ h2
      obtain ⟨hpf1, hpf2, hpf3, hpf4⟩ :=
        splitFragQuery_path_facts (splitNetloc ((schemeSplit (pyUrlsplitClean t)).2.drop 2)).2
      refine ⟨?_, ?_, by simpa using hbr, ?_, hpf2, hpf1, ?_, schemeSplit_fst_lower _, rfl⟩
      · intro c hc
        unfold splitNetloc at hc
        have := mem_takeWhile_pred hc
        simpa using this
      · exact fun c hc => hmemclean c (hsub_netloc hc)
      · rcases dropWhile_head (p := fun c => !isNetlocDelim c)
            ((schemeSplit (pyUrlsplitClean t)).2.drop 2) with hnil | ⟨c, t2, hct, hpc⟩
        · left
          have : (splitNetloc ((schemeSplit (pyUrlsplitClean t)).2.drop 2)).2 = [] := hnil
          cases hp : (splitFragQuery (splitNetloc
              ((schemeSplit (pyUrlsplitClean t)).2.drop 2)).2).1 with
          | nil => rfl
          | cons x xs =>
            have hmem : x ∈ (splitNetloc ((schemeSplit (pyUrlsplitClean t)).2.drop 2)).2 :=
              hpf3 (by rw [hp]; exact List.mem_cons_self x xs)
            rw [this] at hmem
            simp at hmem
        · by_cases hpe : (splitFragQuery (splitNetloc
              ((schemeSplit (pyUrlsplitClean t)).2.drop 2)).2).1 = []
          · exact Or.inl hpe
          · right
            have hdelim : isNetlocDelim c = true := by
              have := hpc
              simpa using this
            have hhead := hpf4 hpe
            have hrest_head : (splitNetloc ((schemeSplit
                (pyUrlsplitClean t)).2.drop 2)).2.head? = some c := by
              show (List.dropWhile _ _).head? = some c
              rw [hct]
              rfl
            rw [hrest_head] at hhead
            have hcmem : c ∈ (splitFragQuery (splitNetloc
                ((schemeSplit (pyUrlsplitClean t)).2.drop 2)).2).1 := by
              cases hp : (splitFragQuery (splitNetloc
                  ((schemeSplit (pyUrlsplitClean t)).2.drop 2)).2).1 with
              | nil => exact absurd hp hpe
              | cons x xs =>
                rw [hp] at hhead
                simp only [List.head?_cons, Option.some.injEq] at hhead
                rw [hhead]
                exact List.mem_cons_self c xs
            rcases isNetlocDelim_cases hdelim with hc | hc | hc
            · rw [← hc]
              exact hhead
            · subst hc
              exact absurd hcmem hpf2
            · subst hc
              exact absurd hcmem hpf1
      · intro c hc
        exact hmemclean c (hsub_rest (hpf3 hc))
  · rw [if_neg hstart] at h
    simp only [Except.ok.injEq] at h
    subst h
    exact absurd rfl hnet

/-! ## The normalizer's output splits back into its own components -/

/-- The facts about split parts guaranteed when `_normalize_candidate_url`
accepted them: http/https scheme, nonempty delimiter-free netloc that passed
the bracket validation, and a clean absolute-or-empty path. -/
structure GoodParts (parts : UrlParts) : Prop where
  scheme_ok : parts.scheme = str "http" ∨ parts.scheme = str "https"
  netloc_ne : parts.netloc ≠ []
  netloc_delim : ∀ c ∈ parts.netloc, isNetlocDelim c = false
  netloc_safe : ∀ c ∈ parts.netloc, isUnsafeUrlByte c = false
  netloc_brackets : bracketViolation parts.netloc = false
  path_head : parts.path = [] ∨ parts.path.head? = some '/'
  path_no_q : '?' ∉ parts.path
  path_no_f : '#' ∉ parts.path
  path_safe : ∀ c ∈ parts.path, isUnsafeUrlByte c = false

theorem goodParts_of_ok {t : List Char} {parts : UrlParts}
    (h : pyUrlsplit t = .ok parts)
    (hsch : lowerL parts.scheme = str "http" ∨ lowerL parts.scheme = str "https")
    (hnet : parts.netloc ≠ []) : GoodParts parts := by
  obtain ⟨f1, f2, f3, f4, f5, f6, f7, f8, _⟩ := pyUrlsplit_ok_facts h hnet
  have hscheme : parts.scheme = str "http" ∨ parts.scheme = str "https" := by
    rcases hsch with hs | hs
    · left
      rw [← f8]
      exact hs
    · right
      rw [← f8]
      exact hs
  exact ⟨hscheme, hnet, f1, f2, f3, f4, f5, f6, f7⟩

theorem buildNormalized_eq (parts : UrlParts) (hs : parts.scheme ≠ [])
    (hn : parts.netloc ≠ []) (hp : parts.path = [] ∨ parts.path.head? = some '/') :
    buildNormalized parts
      = lowerL parts.scheme ++ ':' :: '/' :: '/' :: (lowerL parts.netloc
          ++ (rstripOrPath parts.path
            ++ (if pyUrlencode (filterTracking (pyParseQsl parts.query)) = [] then []
                else '?' :: pyUrlencode (filterTracking (pyParseQsl parts.query))))) := by
  have hln : lowerL parts.netloc ≠ [] := by
    intro hc
    exact hn (List.map_eq_nil_iff.mp hc)
  have hls : lowerL parts.scheme ≠ [] := by
    intro hc
    exact hs (List.map_eq_nil_iff.mp hc)
  have hslash : ¬(rstripOrPath parts.path ≠ []
      ∧ (rstripOrPath parts.path).head? ≠ some '/') := by
    rcases rstripOrPath_head hp with h0 | h0
    · intro hc
      exact hc.1 h0
    · intro hc
      exact hc.2 h0
  unfold buildNormalized pyUrlunsplit
  dsimp only
  rw [if_pos (Or.inl hln), if_neg hslash]
  unfold pyAddScheme pyAddQuery pyAddFragment
  rw [if_pos hls]
  rw [if_neg (by simp)]
  by_cases hq : pyUrlencode (filterTracking (pyParseQsl parts.query)) = []
  · rw [hq]
    rw [if_neg (by simp)]
    simp
  · rw [if_pos hq, if_neg hq]
    simp

theorem lowerL_str_http : lowerL (str "http") = str "http" := by decide

theorem lowerL_str_https : lowerL (str "https") = str "https" := by decide

theorem pyUrlsplit_buildNormalized (parts : UrlParts) (hg : GoodParts parts) :
    pyUrlsplit (buildNormalized parts)
      = .ok ⟨lowerL parts.scheme, lowerL parts.netloc, rstripOrPath parts.path,
          pyUrlencode (filterTracking (pyParseQsl parts.query)), []⟩ := by
  have hs_ne : parts.scheme ≠ [] := by
    rcases hg.scheme_ok with h | h <;> (rw [h]; decide)
  have hls : lowerL parts.scheme = str "http" ∨ lowerL parts.scheme = str "https" := by
    rcases hg.scheme_ok with h | h
    · left
      rw [h, lowerL_str_http]
    · right
      rw [h, lowerL_str_https]
  rw [buildNormalized_eq parts hs_ne hg.netloc_ne hg.path_head]
  refine pyUrlsplit_recover (lowerL parts.scheme) (lowerL parts.netloc)
    (rstripOrPath parts.path) (pyUrlencode (filterTracking (pyParseQsl parts.query)))
    ?_ ?_ ?_ ?_ ?_ ?_ ?_ ?_ ?_ ?_ ?_ ?_ ?_ ?_ ?_
  · rcases hls with h | h <;> (rw [h]; decide)
  · rcases hls with h | h <;> (rw [h]; decide)
  · rcases hls with h | h <;> (rw [h]; decide)
  · intro c t hct
    rcases hls with h | h
    · rw [h, show str "http" = 'h' :: str "ttp" from rfl] at hct
      injection hct with hc _
      subst hc
      exact ⟨by decide, by decide⟩
    · rw [h, show str "https" = 'h' :: str "ttps" from rfl] at hct
      injection hct with hc _
      subst hc
      exact ⟨by decide, by decide⟩
  · exact lowerL_idem _
  · intro c hc
    rcases hls with h | h <;> rw [h] at hc <;> revert hc <;> revert c <;> decide
  · intro c hc
    simp only [lowerL, List.mem_map] at hc
    obtain ⟨y, hy, hxy⟩ := hc
    subst hxy
    exact isNetlocDelim_asciiLower (hg.netloc_delim y hy)
  · intro c hc
    simp only [lowerL, List.mem_map] at hc
    obtain ⟨y, hy, hxy⟩ := hc
    subst hxy
    exact isUnsafeUrlByte_asciiLower (hg.netloc_safe y hy)
  · exact bracketViolation_lowerL hg.netloc_brackets
  · exact rstripOrPath_head hg.path_head
  · exact fun hm => hg.path_no_q (rstripOrPath_subset _ hm)
  · exact fun hm => hg.path_no_f (rstripOrPath_subset _ hm)
  · exact fun c hc => hg.path_safe c (rstripOrPath_subset _ hc)
  · exact fun hm => (pyUrlencode_char_safe hm).1 rfl
  · exact fun c hc => (pyUrlencode_char_safe hc).2

theorem buildNormalized_head (parts : UrlParts) (hg : GoodParts parts) :
    (buildNormalized parts).head? = some 'h' := by
  have hs_ne : parts.scheme ≠ [] := by
    rcases hg.scheme_ok with h | h <;> (rw [h]; decide)
  rw [buildNormalized_eq parts hs_ne hg.netloc_ne hg.path_head]
  rcases hg.scheme_ok with h | h <;> rw [h] <;> rfl

theorem buildNormalized_ne_nil (parts : UrlParts) (hg : GoodParts parts) :
    buildNormalized parts ≠ [] := by
  intro hc
  have := buildNormalized_head parts hg
  rw [hc] at this
  simp at this

/-- Re-normalizing the normalizer's own output (with preprocessing already a
fixed point) returns it unchanged. -/
theorem normalizePost_roundtrip (parts : UrlParts) (hg : GoodParts parts) :
    normalizePost (buildNormalized parts) = .ok (some (buildNormalized parts)) := by
  have hbs : bracketStrip (buildNormalized parts) = buildNormalized parts := by
    unfold bracketStrip
    rw [if_neg]
    intro hc
    have := buildNormalized_head parts hg
    rw [hc.1] at this
    simp at this
  have hls : lowerL parts.scheme = str "http" ∨ lowerL parts.scheme = str "https" := by
    rcases hg.scheme_ok with h | h
    · left
      rw [h, lowerL_str_http]
    · right
      rw [h, lowerL_str_https]
  unfold normalizePost
  rw [hbs, pyUrlsplit_buildNormalized parts hg]
  dsimp only
  rw [if_pos ⟨by rw [lowerL_idem]; exact hls,
    fun hc => hg.netloc_ne (List.map_eq_nil_iff.mp hc)⟩]
  unfold buildNormalized
  dsimp only
  rw [lowerL_idem, lowerL_idem, rstripOrPath_idem, requery]

/-- Inversion of a successful normalization: the split parts it used. -/
theorem normalize_ok_shape {u n : List Char}
    (h : _normalize_candidate_url u = .ok (some n)) :
    ∃ parts : UrlParts,
      pyUrlsplit (bracketStrip (mdReplaceText (htmlUnescape (pyStrip u)))) = .ok parts
      ∧ GoodParts parts ∧ n = buildNormalized parts := by
  unfold _normalize_candidate_url at h
  by_cases hte : htmlUnescape (pyStrip u) = []
  · rw [if_pos hte] at h
    simp at h
  · rw [if_neg hte] at h
    unfold normalizePost at h
    cases hsplit : pyUrlsplit (bracketStrip (mdReplaceText (htmlUnescape (pyStrip u)))) with
    | error e =>
      rw [hsplit] at h
      simp at h
    | ok parts =>
      rw [hsplit] at h
      dsimp only at h
      by_cases hguard : (lowerL parts.scheme = str "http"
          ∨ lowerL parts.scheme = str "https") ∧ parts.netloc ≠ []
      · rw [if_pos hguard] at h
        simp only [Except.ok.injEq, Option.some.injEq] at h
        exact ⟨parts, rfl, goodParts_of_ok hsplit hguard.1 hguard.2, h.symm⟩
      · rw [if_neg hguard] at h
        simp at h

/-- C5 (counterexample): normalization is not idempotent — the output
`http://h/a ` carries a trailing space (preserved from the path by `urlsplit`)
that the second pass's `str.strip()` removes. -/
theorem claim5_not_idempotent_counterexample :
    _normalize_candidate_url (str "http://h/a #f") = .ok (some (str "http://h/a "))
    ∧ _normalize_candidate_url (str "http://h/a ") = .ok (some (str "http://h/a"))
    ∧ _normalize_candidate_url (str "http://h/a ")
        ≠ .ok (some (str "http://h/a ")) := by
  refine ⟨by decide, by decide, by decide⟩

/-- C5 (amended): normalization is idempotent on every input whose normalized
output is left unchanged by the text-preprocessing stage — whitespace
stripping plus HTML unescaping fix it, and the markdown-link pattern does not
match it.  (The counterexample shows the claim fails when preprocessing can
still alter the output, e.g. a trailing space.) -/
theorem claim5_amended_idempotent_on_preprocessing_fixed_points
    (u n : List Char) (h : _normalize_candidate_url u = .ok (some n))
    (hfix : htmlUnescape (pyStrip n) = n) (hmd : mdSearch n = none) :
    _normalize_candidate_url n = .ok (some n) := by
  obtain ⟨parts, hsplit, hg, hn⟩ := normalize_ok_shape h
  subst hn
  unfold _normalize_candidate_url
  rw [hfix, if_neg (buildNormalized_ne_nil parts hg)]
  unfold mdReplaceText
  rw [hmd]
  exact normalizePost_roundtrip parts hg

theorem claim5_amended_witness :
    _normalize_candidate_url (str "HTTPS://ExAmple.COM/Path/?utm_source=x&q=1#frag")
        = .ok (some (str "https://example.com/Path?q=1"))
    ∧ htmlUnescape (pyStrip (str "https://example.com/Path?q=1"))
        = str "https://example.com/Path?q=1"
    ∧ mdSearch (str "https://example.com/Path?q=1") = none
    ∧ _normalize_candidate_url (str "https://example.com/Path?q=1")
        = .ok (some (str "https://example.com/Path?q=1")) :=
  ⟨by decide, by decide, by decide,
    claim5_amended_idempotent_on_preprocessing_fixed_points
      (str "HTTPS://ExAmple.COM/Path/?utm_source=x&q=1#frag")
      (str "https://example.com/Path?q=1") (by decide) (by decide) (by decide)⟩

theorem rstripSlashes_eq_nil_iff (p : List Char) :
    rstripSlashes p = [] ↔ ∀ c ∈ p, c = '/' := by
  unfold rstripSlashes
  rw [List.reverse_eq_nil_iff, List.dropWhile_eq_nil_iff]
  constructor
  · intro h c hc
    have := h c (List.mem_reverse.mpr hc)
    simpa using this
  · intro h c hc
    simp [h c (List.mem_reverse.mp hc)]

/-- C6 (counterexample): `rstrip("/")` removes every trailing slash, not just
one — `http://x.com/a//` normalizes to path `/a`, not `/a/` as the claim
predicts. -/
theorem claim6_single_slash_counterexample :
    _normalize_candidate_url (str "http://x.com/a//") = .ok (some (str "http://x.com/a"))
    ∧ str "http://x.com/a" ≠ str "http://x.com/a/" := by
  refine ⟨by decide, by decide⟩

/-- C6 (amended): the path of the normalized output is the parsed input path
with all trailing slashes removed, except that a path consisting entirely of
slashes (including the empty path) is kept unchanged. -/
theorem claim6_amended_all_trailing_slashes
    (u n : List Char) (h : _normalize_candidate_url u = .ok (some n)) :
    ∃ parts parts2 : UrlParts,
      pyUrlsplit (bracketStrip (mdReplaceText (htmlUnescape (pyStrip u)))) = .ok parts
      ∧ pyUrlsplit n = .ok parts2
      ∧ ((∀ c ∈ parts.path, c = '/') → parts2.path = parts.path)
      ∧ (¬(∀ c ∈ parts.path, c = '/') → parts2.path = rstripSlashes parts.path) := by
  obtain ⟨parts, hsplit, hg, hn⟩ := normalize_ok_shape h
  subst hn
  refine ⟨parts, _, hsplit, pyUrlsplit_buildNormalized parts hg, ?_, ?_⟩
  · intro hall
    show rstripOrPath parts.path = parts.path
    rw [rstripOrPath, if_pos ((rstripSlashes_eq_nil_iff _).mpr hall)]
  · intro hnall
    show rstripOrPath parts.path = rstripSlashes parts.path
    rw [rstripOrPath,
      if_neg (fun hc => hnall ((rstripSlashes_eq_nil_iff _).mp hc))]

theorem claim6_amended_witness :
    _normalize_candidate_url (str "http://x.com/a//") = .ok (some (str "http://x.com/a"))
    ∧ ∃ parts parts2 : UrlParts,
      pyUrlsplit (bracketStrip (mdReplaceText (htmlUnescape
        (pyStrip (str "http://x.com/a//"))))) = .ok parts
      ∧ pyUrlsplit (str "http://x.com/a") = .ok parts2
      ∧ ((∀ c ∈ parts.path, c = '/') → parts2.path = parts.path)
      ∧ (¬(∀ c ∈ parts.path, c = '/') → parts2.path = rstripSlashes parts.path) :=
  ⟨by decide, claim6_amended_all_trailing_slashes (str "http://x.com/a//")
    (str "http://x.com/a") (by decide)⟩

/-! ## C7: markdown-link replacement -/

theorem startsWithL_le {l p : List Char} (h : startsWithL l p = true) :
    p.length ≤ l.length := by
  induction p generalizing l with
  | nil => simp
  | cons c cs ih =>
    cases l with
    | nil => simp [startsWithL] at h
    | cons x xs =>
      simp only [startsWithL, Bool.and_eq_true] at h
      have := ih h.2
      simp only [List.length_cons]
      omega

theorem startsWithL_take {l p : List Char} (h : startsWithL l p = true) :
    l.take p.length = p := by
  induction p generalizing l with
  | nil => simp
  | cons c cs ih =>
    cases l with
    | nil => simp [startsWithL] at h
    | cons x xs =>
      simp only [startsWithL, Bool.and_eq_true, beq_iff_eq] at h
      simp only [List.length_cons, List.take_succ_cons]
      rw [h.1, ih h.2]

theorem startsWithL_append_self (p t : List Char) :
    startsWithL (p ++ t) p = true := by
  induction p with
  | nil => simp [startsWithL]
  | cons c cs ih => simp [startsWithL, ih]

theorem lowerL_append (a b : List Char) :
    lowerL (a ++ b) = lowerL a ++ lowerL b := by
  simp [lowerL]

theorem lowerL_take (l : List Char) (n : Nat) :
    lowerL (l.take n) = (lowerL l).take n := by
  simp [lowerL, List.map_take]

theorem mdHttpStart_drop {l r : List Char} (h : mdHttpStart l = some r) :
    (r = l.drop 8 ∧ startsWithL (lowerL l) (str "https://") = true)
    ∨ (r = l.drop 7 ∧ startsWithL (lowerL l) (str "http://") = true) := by
  unfold mdHttpStart at h
  by_cases h1 : startsWithL (lowerL l) (str "https://") = true
  · rw [if_pos h1] at h
    injection h with hr
    exact Or.inl ⟨hr.symm, h1⟩
  · rw [if_neg h1] at h
    by_cases h2 : startsWithL (lowerL l) (str "http://") = true
    · rw [if_pos h2] at h
      injection h with hr
      exact Or.inr ⟨hr.symm, h2⟩
    · rw [if_neg h2] at h
      exact absurd h (by simp)

theorem mdHttpStart_capture {l r : List Char} (h : mdHttpStart l = some r)
    (t : List Char) :
    startsWithL (lowerL (l.take (l.length - r.length) ++ t)) (str "http://") = true
    ∨ startsWithL (lowerL (l.take (l.length - r.length) ++ t)) (str "https://") = true := by
  rcases mdHttpStart_drop h with ⟨hr, hs⟩ | ⟨hr, hs⟩
  · right
    have h8 : (str "https://").length = 8 := by decide
    have hle := startsWithL_le hs
    rw [lowerL_length, h8] at hle
    have hdrop : r.length = l.length - 8 := by rw [hr, List.length_drop]
    have hdiff : l.length - r.length = 8 := by omega
    have htake : (lowerL l).take 8 = str "https://" := by
      have h9 := startsWithL_take hs
      rw [h8] at h9
      exact h9
    rw [hdiff, lowerL_append, lowerL_take, htake]
    exact startsWithL_append_self _ _
  · left
    have h7 : (str "http://").length = 7 := by decide
    have hle := startsWithL_le hs
    rw [lowerL_length, h7] at hle
    have hdrop : r.length = l.length - 7 := by rw [hr, List.length_drop]
    have hdiff : l.length - r.length = 7 := by omega
    have htake : (lowerL l).take 7 = str "http://" := by
      have h9 := startsWithL_take hs
      rw [h7] at h9
      exact h9
    rw [hdiff, lowerL_append, lowerL_take, htake]
    exact startsWithL_append_self _ _

theorem mdGroup2_scheme {rest2 g2 : List Char} (h : mdGroup2 rest2 = some g2) :
    startsWithL (lowerL g2) (str "http://") = true
    ∨ startsWithL (lowerL g2) (str "https://") = true := by
  unfold mdGroup2 at h
  cases hm : mdHttpStart rest2 with
  | none =>
    rw [hm] at h
    exact absurd h (by simp)
  | some a2 =>
    rw [hm] at h
    dsimp only at h
    split_ifs at h with h1 h2
    injection h with hg
    rw [← hg]
    exact mdHttpStart_capture hm _

theorem mdAfterBracket_scheme {rest g2 : List Char}
    (h : mdAfterBracket rest = some g2) :
    startsWithL (lowerL g2) (str "http://") = true
    ∨ startsWithL (lowerL g2) (str "https://") = true := by
  unfold mdAfterBracket at h
  cases hm : mdHttpStart rest with
  | none =>
    rw [hm] at h
    exact absurd h (by simp)
  | some a =>
    rw [hm] at h
    dsimp only at h
    split_ifs at h with h1 h2
    exact mdGroup2_scheme h

theorem mdTryAt_scheme {l g2 : List Char} (h : mdTryAt l = some g2) :
    startsWithL (lowerL g2) (str "http://") = true
    ∨ startsWithL (lowerL g2) (str "https://") = true := by
  unfold mdTryAt at h
  split_ifs at h with h1
  exact mdAfterBracket_scheme h

theorem mdSearch_scheme {l g2 : List Char} (h : mdSearch l = some g2) :
    startsWithL (lowerL g2) (str "http://") = true
    ∨ startsWithL (lowerL g2) (str "https://") = true := by
  induction l with
  | nil => exact absurd h (by simp [mdSearch])
  | cons c rest ih =>
    simp only [mdSearch] at h
    cases ht : mdTryAt (c :: rest) with
    | some g =>
      rw [ht] at h
      dsimp only at h
      injection h with hg
      subst hg
      exact mdTryAt_scheme ht
    | none =>
      rw [ht] at h
      dsimp only at h
      exact ih h

/-- C7: the claim is FALSE as stated for arbitrary labels — the markdown
regex `\[(https?://[^\]]+)\]\((https?://[^)]+)\)` requires the LABEL itself
to be an http(s) url, so `[Apply](http://x.com/page)` does not match: the
whole text is parsed as-is (no scheme → `None`), not as the captured url. -/
theorem claim7_plain_label_counterexample :
    _normalize_candidate_url (str "[Apply](http://x.com/page)") = .ok none
    ∧ _normalize_candidate_url (str "http://x.com/page")
        = .ok (some (str "http://x.com/page"))
    ∧ _normalize_candidate_url (str "[Apply](http://x.com/page)")
        ≠ _normalize_candidate_url (str "http://x.com/page") := by
  refine ⟨by decide, by decide, by decide⟩

/-- C7 (amended): whenever the stripped-and-unescaped text is non-empty and
the markdown pattern does match (which forces the label, like the target, to
be an http(s) url), normalization continues with exactly the captured
group-2 url, which itself starts with `http://` or `https://` up to case. -/
theorem claim7_amended_markdown_url_label (u g2 : List Char)
    (hne : htmlUnescape (pyStrip u) ≠ [])
    (hmd : mdSearch (htmlUnescape (pyStrip u)) = some g2) :
    _normalize_candidate_url u = normalizePost g2
    ∧ (startsWithL (lowerL g2) (str "http://") = true
       ∨ startsWithL (lowerL g2) (str "https://") = true) := by
  refine ⟨?_, mdSearch_scheme hmd⟩
  unfold _normalize_candidate_url
  rw [if_neg hne]
  unfold mdReplaceText
  rw [hmd]

theorem claim7_amended_witness :
    (htmlUnescape (pyStrip (str "[http://a.com/x](http://b.com/y)")) ≠ []
     ∧ mdSearch (htmlUnescape (pyStrip (str "[http://a.com/x](http://b.com/y)")))
        = some (str "http://b.com/y"))
    ∧ (_normalize_candidate_url (str "[http://a.com/x](http://b.com/y)")
        = normalizePost (str "http://b.com/y")
       ∧ (startsWithL (lowerL (str "http://b.com/y")) (str "http://") = true
          ∨ startsWithL (lowerL (str "http://b.com/y")) (str "https://") = true)) :=
  ⟨⟨by decide, by decide⟩,
    claim7_amended_markdown_url_label (str "[http://a.com/x](http://b.com/y)")
      (str "http://b.com/y") (by decide) (by decide)⟩

end JobTracker
